import Mathlib

/-!
# Verification of the pontospell alignment engines

Shallow embedding of the two alignment engines of the `pontospell`
repository and proofs about them.

* `src/pontospell/xducer.py` — the recursive enumerator (`relate` / `parse` /
  `try_op` / `remove_suboptimal_parses`), embedded here as `parseL`/`relateL`
  over explicit suffix lists.  The Python code addresses the two sequences by
  a pair of start positions and caches results in `args.memory`; since the
  memo is only ever written with the value `parse args start` computed at that
  same key, `relate args start` denotes `parse args start`, and the embedding
  recurses on the two remaining suffixes directly.  (The chart matrix
  dictionary, whose sharing across calls is itself under scrutiny, is
  additionally modelled as an explicit association list further below.)
* `src/pontospell/chart.py` — the tabular engine (`make_edited_cell`,
  `compute_min_edit_distance`, `min_edit_distance`, `get_one_backtrace`),
  embedded as the total function `matrixCell` on matrix coordinates; the
  Python code fills a dictionary keyed by `Coordinates(target_pos,
  source_pos)`, writing each in-range key exactly once with a value computed
  from already-written keys, so the dictionary's in-range contents are the
  values of this recursive function.
* `src/pontospell/levenshtein.py` — the class-based variant of the tabular
  engine (`_compute_min_edit_distance`, `alignment_facts`), embedded as
  `ldist` / `alignment_factsL`.

Costs (Python numbers) are embedded as an arbitrary `LinearOrderedSemiring`
`β`; every run of the Python code with exact numeric costs is an instance
(`β := ℚ` covers the default model and fractional models alike).
Out-of-range sequence accesses (which would raise in Python and never occur
on in-range runs) are embedded via `Option` lookups `l[i]?`.
-/

/-- Cost model shared by both engines: `xducer.CostFunctions`; `chart.py` and
`levenshtein.py` pass/override the same three functions separately. -/
structure CostFunctions (β α : Type) where
  insert : α → β
  delete : α → β
  substitute : α → α → β

/-- `lev_sub_function` of both `chart.py` and `xducer.py` (and
`Levenshtein.sub_cost`): 0 for equal elements, else 2. -/
def lev_sub_function (β : Type) [Zero β] [OfNat β 2] [DecidableEq α]
    (source target : α) : β :=
  if source = target then 0 else 2

/-- The default cost model (`lev_ins_function`, `lev_del_function`,
`lev_sub_function`): insert = 1, delete = 1, substitute = 0/2. -/
def levCosts (β α : Type) [One β] [Zero β] [OfNat β 2] [DecidableEq α] :
    CostFunctions β α :=
  ⟨fun _ => 1, fun _ => 1, lev_sub_function β⟩

/-! ## The enumerator engine (`xducer.py`) -/

/-- `xducer.Cell`: one aligned pair in a parse.  `source`/`target` are `None`
for the side not consumed by the operation. -/
structure XCell (β α : Type) where
  source : Option α
  target : Option α
  this_cost : β
  cumul_cost : β
deriving DecidableEq, Repr

/-- `xducer.Parse`: a list of cells. -/
abbrev Parse (β α : Type) := List (XCell β α)

/-- `xducer.Parses`: a list of parses. -/
abbrev Parses (β α : Type) := List (Parse β α)

variable {β α : Type}

/-- `xducer.parse_cost`: the cumulative cost stored in the first cell.
(Python indexes `pars[0]`; parses produced by the engine are never empty,
so the `[]` branch is junk.) -/
def parse_cost [Zero β] (pars : Parse β α) : β :=
  match pars with
  | [] => 0
  | c :: _ => c.cumul_cost

/-- The tail of `xducer.try_op` after the recursive call: given the new cell
(built with `cumul_cost = this_cost`) and the parses of the remaining
suffixes, either start a fresh singleton parse or prepend the cell to every
tail parse, re-computing its cumulative cost. -/
def try_op_result [Zero β] [Add β] (cell : XCell β α) (tail : Parses β α) : Parses β α :=
  if tail.isEmpty then [[cell]]
  else tail.map fun p => { cell with cumul_cost := cell.this_cost + parse_cost p } :: p

/-- `min(...)` over a list of costs as computed by
`remove_suboptimal_parses` (Python `min` raises on an empty sequence; the
`[]` branch is junk). -/
def list_min [Zero β] [LinearOrder β] : List β → β
  | [] => 0
  | c :: cs => cs.foldl min c

/-- `xducer.remove_suboptimal_parses`. -/
def remove_suboptimal_parses [Zero β] [LinearOrder β] (parses : Parses β α)
    (just_one : Bool) : Parses β α :=
  let minimum := list_min (parses.map parse_cost)
  let minimal_parses := parses.filter fun p => parse_cost p = minimum
  if just_one then minimal_parses.take 1 else minimal_parses

/-- `xducer.parse` when the remaining source suffix is empty: only the INS
branch of `try_op` is feasible. -/
def parseNilSource [Zero β] [Add β] [LinearOrder β] (cm : CostFunctions β α)
    (just_one : Bool) : List α → Parses β α
  | [] => []
  | t :: ts =>
    let parses := try_op_result ⟨none, some t, cm.insert t, cm.insert t⟩
      (parseNilSource cm just_one ts)
    if parses.isEmpty then parses else remove_suboptimal_parses parses just_one

/-- `xducer.parse` when the remaining source suffix is `s :: ss`, with the
results for the smaller source suffix `ss` supplied as the function `rest`.
The feasible `try_op` branches are taken in the source's SUB, DEL, INS
order. -/
def parseCons [Zero β] [Add β] [LinearOrder β] (cm : CostFunctions β α)
    (just_one : Bool) (s : α) (rest : List α → Parses β α) : List α → Parses β α
  | [] =>
    let parses := try_op_result ⟨some s, none, cm.delete s, cm.delete s⟩ (rest [])
    if parses.isEmpty then parses else remove_suboptimal_parses parses just_one
  | t :: ts =>
    let parses :=
      try_op_result ⟨some s, some t, cm.substitute s t, cm.substitute s t⟩ (rest ts)
      ++ try_op_result ⟨some s, none, cm.delete s, cm.delete s⟩ (rest (t :: ts))
      ++ try_op_result ⟨none, some t, cm.insert t, cm.insert t⟩
        (parseCons cm just_one s rest ts)
    if parses.isEmpty then parses else remove_suboptimal_parses parses just_one

/-- `xducer.parse`, with the start coordinates replaced by the two remaining
suffixes (`remaining_source`/`remaining_target` are their lengths, and
`args.source[start_pos.source]` is the head of the source suffix).  Split
into the two structural recursions above; the equations `parseL_nil_nil`,
`parseL_nil_cons`, `parseL_cons_nil` and `parseL_cons_cons` below recover
the Python function's four feasibility cases verbatim. -/
def parseL [Zero β] [Add β] [LinearOrder β] (cm : CostFunctions β α)
    (just_one : Bool) : List α → List α → Parses β α
  | [], ts => parseNilSource cm just_one ts
  | s :: ss, ts => parseCons cm just_one s (parseL cm just_one ss) ts

/-- `xducer.relate` called from the origin (as `relate(arguments(...))` does):
`args.memory` starts empty and caches only values of `parse`, so this is
`parse` at the origin. -/
def relateL [Zero β] [Add β] [LinearOrder β] (cm : CostFunctions β α)
    (just_one : Bool) (source target : List α) : Parses β α :=
  parseL cm just_one source target

/-! ## The tabular engine (`chart.py`) -/

/-- `chart.Operation`. -/
inductive COperation : Type
  | START
  | INS
  | DEL
  | SUB
deriving DecidableEq, Repr

/-- `chart.Cell`. -/
structure CCell (β : Type) where
  this_cost : β
  cumulative_cost : β
  operation : COperation
deriving DecidableEq, Repr

/-- `chart.make_edited_cell`, with the matrix lookup of the predecessor cell
passed in as `cell_before`.  The operation is INS when the source element is
`None`, DEL when the target element is `None`, else SUB; the `none, none`
case never arises at in-range coordinates (Python would pass `None` into the
insert-cost function there). -/
def make_edited_cell [Zero β] [Add β] (cm : CostFunctions β α)
    (src_element targ_element : Option α) (cell_before : CCell β) : CCell β :=
  match src_element, targ_element with
  | none, some t => ⟨cm.insert t, cell_before.cumulative_cost + cm.insert t, .INS⟩
  | some s, none => ⟨cm.delete s, cell_before.cumulative_cost + cm.delete s, .DEL⟩
  | some s, some t =>
    ⟨cm.substitute s t, cell_before.cumulative_cost + cm.substitute s t, .SUB⟩
  | none, none => ⟨0, cell_before.cumulative_cost, .INS⟩

/-- The distance matrix built by `chart.compute_min_edit_distance`, as a
function of `Coordinates(target_pos, source_pos)`: the origin from the
`PairAnalysis` matrix initializer, the two margins, and the body cell chosen
from the three candidates by minimal cumulative cost with the source's
SUB-then-DEL-then-INS tie-break.  Each in-range dictionary key is written
exactly once, from already-written keys, so the dictionary entry at `(i, j)`
is `matrixCell cm source target i j`.

Split into a structural recursion row by row: `matrixTopRow` is the
`targ_pos = 0` margin, `matrixNextRow` computes row `i + 1` from the
completed row `i` (`prev_row`), reading the up and diagonal neighbours from
`prev_row` and the left neighbour from its own recursion, exactly as the
Python body loop reads `matrix[(i-1, j)]`, `matrix[(i-1, j-1)]` and
`matrix[(i, j-1)]`.  The equations `matrixCell_zero_zero`,
`matrixCell_margin_targ`, `matrixCell_margin_src` and `matrixCell_body`
below recover the per-cell formulas coordinate-wise. -/
def matrixTopRow [Zero β] [Add β] (cm : CostFunctions β α) (source : List α) :
    ℕ → CCell β
  | 0 => ⟨0, 0, .START⟩
  | j + 1 => make_edited_cell cm source[j]? none (matrixTopRow cm source j)

/-- Row `i + 1` of the distance matrix from row `i`; see `matrixTopRow`. -/
def matrixNextRow [Zero β] [Add β] [LinearOrder β] (cm : CostFunctions β α)
    (source : List α) (targ_el : Option α) (prev_row : ℕ → CCell β) : ℕ → CCell β
  | 0 => make_edited_cell cm none targ_el (prev_row 0)
  | j + 1 =>
    let ins_cell := make_edited_cell cm none targ_el (prev_row (j + 1))
    let sub_cell := make_edited_cell cm source[j]? targ_el (prev_row j)
    let del_cell := make_edited_cell cm source[j]? none
      (matrixNextRow cm source targ_el prev_row j)
    let min_cost := min ins_cell.cumulative_cost
      (min sub_cell.cumulative_cost del_cell.cumulative_cost)
    if min_cost = sub_cell.cumulative_cost then sub_cell
    else if min_cost = del_cell.cumulative_cost then del_cell
    else ins_cell

/-- The distance matrix as a function of `Coordinates(target_pos, source_pos)`;
see `matrixTopRow`. -/
def matrixCell [Zero β] [Add β] [LinearOrder β] (cm : CostFunctions β α)
    (source target : List α) : ℕ → ℕ → CCell β
  | 0 => matrixTopRow cm source
  | i + 1 => matrixNextRow cm source target[i]? (matrixCell cm source target i)

/-- `chart.min_edit_distance`: the cumulative cost at
`Coordinates(len(target), len(source))`. -/
def min_edit_distanceM [Zero β] [Add β] [LinearOrder β] (cm : CostFunctions β α)
    (source target : List α) : β :=
  (matrixCell cm source target target.length source.length).cumulative_cost

/-- `chart.EditStep`: one step of the backtrace. -/
structure EditStep (β α : Type) where
  source : Option α
  target : Option α
  cell : CCell β
deriving DecidableEq, Repr

/-- The `while` loop of `chart.get_one_backtrace` with an explicit fuel
bound (each iteration of the Python loop strictly decreases
`src_pos + targ_pos` on a well-formed matrix, so `targ_pos + src_pos` fuel
is enough).  Steps are accumulated with `backtrace.insert(0, step)`, i.e.
the step for the current coordinates ends up after all steps produced by the
remaining iterations.  The `else` branch of the Python `if`/`elif` covers
both DEL and (unreachably, at in-range nonzero coordinates) START. -/
def backtraceAux [Zero β] [Add β] [LinearOrder β] (cm : CostFunctions β α)
    (source target : List α) : ℕ → ℕ → ℕ → List (EditStep β α)
  | 0, _, _ => []
  | fuel + 1, targ_pos, src_pos =>
    if targ_pos = 0 ∧ src_pos = 0 then []
    else
      let cell := matrixCell cm source target targ_pos src_pos
      match cell.operation with
      | .SUB =>
        backtraceAux cm source target fuel (targ_pos - 1) (src_pos - 1) ++
          [⟨source[src_pos - 1]?, target[targ_pos - 1]?, cell⟩]
      | .INS =>
        backtraceAux cm source target fuel (targ_pos - 1) src_pos ++
          [⟨none, target[targ_pos - 1]?, cell⟩]
      | _ =>
        backtraceAux cm source target fuel targ_pos (src_pos - 1) ++
          [⟨source[src_pos - 1]?, none, cell⟩]

/-- `chart.get_one_backtrace`: walk back from
`Coordinates(len(target), len(source))`. -/
def get_one_backtraceL [Zero β] [Add β] [LinearOrder β] (cm : CostFunctions β α)
    (source target : List α) : List (EditStep β α) :=
  backtraceAux cm source target (target.length + source.length)
    target.length source.length

/-! ## Reference value: recursive edit distance over suffixes -/

/-- Minimum of three costs (the body recurrence takes
`min` over the INS, SUB and DEL candidates). -/
def min3 [LinearOrder β] (a b c : β) : β := min a (min b c)

/-- Reference edit distance between two suffixes, recursing on the leading
elements.  Both engines are proved to compute this value. -/
def ed [Zero β] [Add β] [LinearOrder β] (cm : CostFunctions β α) :
    List α → List α → β
  | [], [] => 0
  | [], t :: ts => cm.insert t + ed cm [] ts
  | s :: ss, [] => cm.delete s + ed cm ss []
  | s :: ss, t :: ts =>
    min3 (cm.substitute s t + ed cm ss ts) (cm.delete s + ed cm ss (t :: ts))
      (cm.insert t + ed cm (s :: ss) ts)
termination_by s t => (s.length, t.length)

/-- Sum of the per-step (incremental) costs of a parse. -/
def sum_this [AddCommMonoid β] (pars : Parse β α) : β := (pars.map XCell.this_cost).sum

/-- The non-absent source elements of a parse, in order. -/
def src_elements (pars : Parse β α) : List α := pars.filterMap XCell.source

/-- The non-absent target elements of a parse, in order. -/
def targ_elements (pars : Parse β α) : List α := pars.filterMap XCell.target

/-- Sum of the per-step costs of a backtrace. -/
def bt_sum_this [AddCommMonoid β] (bt : List (EditStep β α)) : β :=
  (bt.map fun st => st.cell.this_cost).sum

/-- The non-absent source elements of a backtrace, in order. -/
def bt_src_elements (bt : List (EditStep β α)) : List α := bt.filterMap EditStep.source

/-- The non-absent target elements of a backtrace, in order. -/
def bt_targ_elements (bt : List (EditStep β α)) : List α := bt.filterMap EditStep.target

/-- The all-INSERT parse the enumerator produces for an empty source: one
cell per target element, in order, each cell's cumulative cost covering the
remaining suffix (the last cell is the `try_op` base case with
`cumul_cost = this_cost`). -/
def insPath [Zero β] [Add β] (cm : CostFunctions β α) : List α → Parse β α
  | [] => []
  | [t] => [⟨none, some t, cm.insert t, cm.insert t⟩]
  | t :: t2 :: ts =>
    ⟨none, some t, cm.insert t, cm.insert t + parse_cost (insPath cm (t2 :: ts))⟩ ::
      insPath cm (t2 :: ts)

/-- The all-DELETE parse the enumerator produces for an empty target;
see `insPath`. -/
def delPath [Zero β] [Add β] (cm : CostFunctions β α) : List α → Parse β α
  | [] => []
  | [s] => [⟨some s, none, cm.delete s, cm.delete s⟩]
  | s :: s2 :: ss =>
    ⟨some s, none, cm.delete s, cm.delete s + parse_cost (delPath cm (s2 :: ss))⟩ ::
      delPath cm (s2 :: ss)

/-! ## The class-based tabular engine (`levenshtein.py`) -/

/-- `levenshtein.Cell`: cumulative cost (`num`) and the operation that
reached the cell.  The Python string constants START/INSERT/DELETE/SUBSTITUTE
are the same four tags as `chart.Operation`. -/
structure LCell (β : Type) where
  num : β
  operation : COperation
deriving DecidableEq, Repr

/-- `ins_cost` applied to an optional element (out-of-range lookups never
occur in range; the `none` value is junk). -/
def ins_costO [Zero β] (cm : CostFunctions β α) (o : Option α) : β :=
  (o.map cm.insert).getD 0

/-- `del_cost` applied to an optional element. -/
def del_costO [Zero β] (cm : CostFunctions β α) (o : Option α) : β :=
  (o.map cm.delete).getD 0

/-- `sub_cost` applied to optional elements. -/
def sub_costO [Zero β] (cm : CostFunctions β α) (o1 o2 : Option α) : β :=
  match o1, o2 with
  | some s, some t => cm.substitute s t
  | _, _ => 0

/-- The `targ_pos = 0` margin of `Levenshtein._compute_min_edit_distance`:
origin cell plus the DELETE margin along `sequence1`. -/
def ldistTopRow [Zero β] [Add β] (cm : CostFunctions β α) (sequence1 : List α) :
    ℕ → LCell β
  | 0 => ⟨0, .START⟩
  | j + 1 => ⟨(ldistTopRow cm sequence1 j).num + del_costO cm sequence1[j]?, .DEL⟩

/-- Row `i + 1` of the `Levenshtein` distance matrix from row `i`: the INSERT
margin cell at `j = 0`, then the body recurrence
`min(ins_cost, sub_cost, del_cost)` with the SUB-then-DEL-then-INS
tie-break. -/
def ldistNextRow [Zero β] [Add β] [LinearOrder β] (cm : CostFunctions β α)
    (sequence1 : List α) (targ_el : Option α) (prev_row : ℕ → LCell β) : ℕ → LCell β
  | 0 => ⟨(prev_row 0).num + ins_costO cm targ_el, .INS⟩
  | j + 1 =>
    let ins_cost := (prev_row (j + 1)).num + ins_costO cm targ_el
    let sub_cost := (prev_row j).num + sub_costO cm sequence1[j]? targ_el
    let del_cost := (ldistNextRow cm sequence1 targ_el prev_row j).num +
      del_costO cm sequence1[j]?
    let min_cost := min ins_cost (min sub_cost del_cost)
    ⟨min_cost,
      if min_cost = sub_cost then .SUB else if min_cost = del_cost then .DEL else .INS⟩

/-- The distance matrix of `Levenshtein._compute_min_edit_distance`, as a
function of the dictionary key `(i, j)` with `i` a position in `sequence2`
and `j` a position in `sequence1` (each in-range key is written exactly
once, from already-written keys). -/
def ldist [Zero β] [Add β] [LinearOrder β] (cm : CostFunctions β α)
    (sequence1 sequence2 : List α) : ℕ → ℕ → LCell β
  | 0 => ldistTopRow cm sequence1
  | i + 1 => ldistNextRow cm sequence1 sequence2[i]? (ldist cm sequence1 sequence2 i)

/-- `Levenshtein.min_edit_distance`:
`distance[len(sequence2), len(sequence1)].num`. -/
def min_edit_distanceLev [Zero β] [Add β] [LinearOrder β] (cm : CostFunctions β α)
    (sequence1 sequence2 : List α) : β :=
  (ldist cm sequence1 sequence2 sequence2.length sequence1.length).num

/-- `levenshtein.AlignmentUnit`: `(unit1, unit2, cost)` where `cost` is the
cumulative cost of the cell the step was read from. -/
structure AlignmentUnit (β α : Type) where
  unit1 : Option α
  unit2 : Option α
  cost : β
deriving DecidableEq, Repr

/-- The `while` loop of `Levenshtein.alignment_facts`, with fuel, exactly as
`backtraceAux` for the chart engine (the Python `else` branch covers DELETE
and, unreachably at in-range nonzero coordinates, START). -/
def alignment_factsAux [Zero β] [Add β] [LinearOrder β] (cm : CostFunctions β α)
    (sequence1 sequence2 : List α) : ℕ → ℕ → ℕ → List (AlignmentUnit β α)
  | 0, _, _ => []
  | fuel + 1, position2, position1 =>
    if position2 = 0 ∧ position1 = 0 then []
    else
      let cell := ldist cm sequence1 sequence2 position2 position1
      match cell.operation with
      | .SUB =>
        alignment_factsAux cm sequence1 sequence2 fuel (position2 - 1) (position1 - 1) ++
          [⟨sequence1[position1 - 1]?, sequence2[position2 - 1]?, cell.num⟩]
      | .INS =>
        alignment_factsAux cm sequence1 sequence2 fuel (position2 - 1) position1 ++
          [⟨none, sequence2[position2 - 1]?, cell.num⟩]
      | _ =>
        alignment_factsAux cm sequence1 sequence2 fuel position2 (position1 - 1) ++
          [⟨sequence1[position1 - 1]?, none, cell.num⟩]

/-- `Levenshtein.alignment_facts`: walk back from
`(len(sequence2), len(sequence1))`. -/
def alignment_factsL [Zero β] [Add β] [LinearOrder β] (cm : CostFunctions β α)
    (sequence1 sequence2 : List α) : List (AlignmentUnit β α) :=
  alignment_factsAux cm sequence1 sequence2 (sequence2.length + sequence1.length)
    sequence2.length sequence1.length

/-- The non-absent `unit1` elements of an alignment-facts list, in order. -/
def af_unit1_elements (units : List (AlignmentUnit β α)) : List α :=
  units.filterMap AlignmentUnit.unit1

/-- The non-absent `unit2` elements of an alignment-facts list, in order. -/
def af_unit2_elements (units : List (AlignmentUnit β α)) : List α :=
  units.filterMap AlignmentUnit.unit2

/-! ## Display widths (`print_len`, `greatest_width`, formatter columns)

`print_len` counts the characters of `str(text)` whose Unicode category does
not start with `'M'` (the Mark categories Mn/Mc/Me).  The Unicode category
table lives outside the repository (Python's `unicodedata`), so it enters
the embedding as a parameter `is_mark : Char → Bool`; known category facts
(e.g. that U+0301 COMBINING ACUTE ACCENT is a Mark and Latin letters are
not) are supplied at the call site.  Elements of arbitrary type are
stringified by Python's `str`; the composite `print_len ∘ str` on elements
enters as a width parameter `w : α → ℕ` where element types stay generic. -/

/-- `print_len` of `chart.py` and `levenshtein.py` on a string: the number
of non-Mark characters. -/
def print_len (is_mark : Char → Bool) (text : String) : ℕ :=
  (text.data.filter fun ch => ! is_mark ch).length

/-- `chart.greatest_width`: `max(print_len(e) for e in elements)`, which
raises `ValueError` on an empty sequence — embedded as `none`. -/
def greatest_width (w : α → ℕ) : List α → Option ℕ
  | [] => none
  | e :: es => some ((es.map w).foldl max (w e))

/-- `levenshtein.greatest_width`: starts from `widest = 0`, so it is total
and returns 0 on an empty list. -/
def greatest_widthLev (w : α → ℕ) (elements : List α) : ℕ :=
  elements.foldl (fun widest e => max widest (w e)) 0

/-- `chart.PairAnalysis` minus the matrix dictionary (the matrix contents
are the function `matrixCell` of the stored sequences and cost functions;
the dictionary object itself is modelled separately below).  The three
Python cost-function fields are grouped as one `CostFunctions` record. -/
structure PairAnalysis (β α : Type) where
  source : List α
  source_widest : ℕ
  target : List α
  target_widest : ℕ
  cost_functions : CostFunctions β α

/-- `chart.levenshtein`: builds the `PairAnalysis`, propagating the
`ValueError` that `greatest_width` raises on an empty source or target. -/
def levenshteinL (w : α → ℕ) (cm : CostFunctions β α) (source target : List α) :
    Option (PairAnalysis β α) :=
  match greatest_width w source, greatest_width w target with
  | some sw, some tw => some ⟨source, sw, target, tw, cm⟩
  | _, _ => none

/-- `chart.min_edit_distance` on an analysis. -/
def min_edit_distanceA [Zero β] [Add β] [LinearOrder β] (a : PairAnalysis β α) : β :=
  (matrixCell a.cost_functions a.source a.target a.target.length
    a.source.length).cumulative_cost

/-- `chart.get_one_backtrace` on an analysis. -/
def get_one_backtraceA [Zero β] [Add β] [LinearOrder β] (a : PairAnalysis β α) :
    List (EditStep β α) :=
  get_one_backtraceL a.cost_functions a.source a.target

/-- `xducer.element_length`: `len(str(getattr(cell, element_name) or ''))` —
the raw character count of the selected element, `''` for an absent one. -/
def element_length (o : Option String) : ℕ := (o.getD "").length

/-- `xducer.biggest_length_in_parse`, with the `element_name` attribute
lookup passed as the selector `sel` (Python `max` raises on the empty parse;
parses produced by the engine are never empty, so the `[]` branch is junk). -/
def biggest_length_in_parse (pars : Parse β String)
    (sel : XCell β String → Option String) : ℕ :=
  match pars with
  | [] => 0
  | c :: cs => (cs.map fun x => element_length (sel x)).foldl max (element_length (sel c))

/-- The maximum *printable* width (Mark characters excluded) over the
elements of a column of a parse — what the specification asserts the
formatter column width to be. -/
def biggest_print_len_in_parse (is_mark : Char → Bool) (pars : Parse β String)
    (sel : XCell β String → Option String) : ℕ :=
  match pars with
  | [] => 0
  | c :: cs =>
    (cs.map fun x => print_len is_mark ((sel x).getD "")).foldl max
      (print_len is_mark ((sel c).getD ""))

/-- U+0301 COMBINING ACUTE ACCENT is the one Mark character used in the
concrete width counterexample; its Unicode category is Mn. -/
def isCombiningAcute (ch : Char) : Bool := ch = '́'

/-! ## The matrix dictionary as mutable state (`chart.PairAnalysis.matrix`)

`PairAnalysis` declares
`matrix: DistanceMatrix = DistanceMatrix({Coordinates(0, 0): Cell(0, 0, Operation.START)})`
as a `NamedTuple` field *default value*.  Python evaluates that default
dictionary once, at class-creation time, so every `PairAnalysis` built
without an explicit `matrix` argument — in particular every result of
`chart.levenshtein` — shares the *same* dictionary object.
`compute_min_edit_distance` then writes this shared dictionary in place.
To settle the state-lifecycle claim, the dictionary is modelled explicitly
as an association list threaded through the writes of
`compute_min_edit_distance`. -/

/-- A matrix dictionary: keys are `Coordinates(target_pos, source_pos)`. -/
abbrev DictM (β : Type) := List ((ℕ × ℕ) × CCell β)

/-- Dictionary assignment `matrix[coords] = cell` (replaces any previous
binding of the key). -/
def dict_set (m : DictM β) (k : ℕ × ℕ) (c : CCell β) : DictM β :=
  (k, c) :: m.filter fun kv => !(kv.1 = k : Bool)

/-- Dictionary lookup `matrix[coords]`, `none` when the key is absent
(Python would raise `KeyError`). -/
def dict_get? (m : DictM β) (k : ℕ × ℕ) : Option (CCell β) :=
  (m.find? fun kv => kv.1 = k).map fun kv => kv.2

/-- `chart.make_edited_cell` against the dictionary state: computes
`coords_before` from `to_coords` exactly as the Python code does and reads
the dictionary there (in-range runs always find the key; the junk default
stands in for `KeyError`). -/
def make_edited_cellD [Zero β] [Add β] (cm : CostFunctions β α) (m : DictM β)
    (to_coords : ℕ × ℕ) (src_element targ_element : Option α) : CCell β :=
  let coords_before : ℕ × ℕ :=
    (to_coords.1 - (if targ_element.isSome then 1 else 0),
      to_coords.2 - (if src_element.isSome then 1 else 0))
  make_edited_cell cm src_element targ_element
    ((dict_get? m coords_before).getD ⟨0, 0, .START⟩)

/-- `chart.compute_min_edit_distance` as a state transformer on the matrix
dictionary: the two margin loops, then the body loops (target position
outer, source position inner), each iteration writing one key computed from
the current dictionary state. -/
def compute_min_edit_distanceD [Zero β] [Add β] [LinearOrder β]
    (cm : CostFunctions β α) (source target : List α) (m0 : DictM β) : DictM β :=
  let m1 := (List.range target.length).foldl
    (fun m i => dict_set m (i + 1, 0) (make_edited_cellD cm m (i + 1, 0) none target[i]?))
    m0
  let m2 := (List.range source.length).foldl
    (fun m j => dict_set m (0, j + 1) (make_edited_cellD cm m (0, j + 1) source[j]? none))
    m1
  (List.range target.length).foldl
    (fun m i =>
      (List.range source.length).foldl
        (fun m j =>
          let ins_cell := make_edited_cellD cm m (i + 1, j + 1) none target[i]?
          let sub_cell := make_edited_cellD cm m (i + 1, j + 1) source[j]? target[i]?
          let del_cell := make_edited_cellD cm m (i + 1, j + 1) source[j]? none
          let min_cost := min ins_cell.cumulative_cost
            (min sub_cell.cumulative_cost del_cell.cumulative_cost)
          dict_set m (i + 1, j + 1)
            (if min_cost = sub_cell.cumulative_cost then sub_cell
             else if min_cost = del_cell.cumulative_cost then del_cell
             else ins_cell))
        m)
    m2

/-- The class-level default dictionary of `PairAnalysis`: created once, at
class definition time, holding only the origin cell. -/
def sharedMatrixInit (β : Type) [Zero β] : DictM β := [((0, 0), ⟨0, 0, .START⟩)]

/-! ## Lemmas about `min3` -/

section Min3
variable [LinearOrderedSemiring β]

theorem min3_le_left (a b c : β) : min3 a b c ≤ a := min_le_left _ _

theorem min3_le_mid (a b c : β) : min3 a b c ≤ b :=
  le_trans (min_le_right _ _) (min_le_left _ _)

theorem min3_le_right (a b c : β) : min3 a b c ≤ c :=
  le_trans (min_le_right _ _) (min_le_right _ _)

theorem le_min3 {d a b c : β} (h1 : d ≤ a) (h2 : d ≤ b) (h3 : d ≤ c) :
    d ≤ min3 a b c :=
  le_min h1 (le_min h2 h3)

theorem min3_mono {a a2 b b2 c c2 : β} (ha : a ≤ a2) (hb : b ≤ b2) (hc : c ≤ c2) :
    min3 a b c ≤ min3 a2 b2 c2 :=
  le_min3 (le_trans (min3_le_left _ _ _) ha) (le_trans (min3_le_mid _ _ _) hb)
    (le_trans (min3_le_right _ _ _) hc)

theorem add_min3 (k a b c : β) : k + min3 a b c = min3 (k + a) (k + b) (k + c) := by
  unfold min3
  rw [min_add_add_left, min_add_add_left]

theorem min3_add (k a b c : β) : min3 a b c + k = min3 (a + k) (b + k) (c + k) := by
  unfold min3
  rw [min_add_add_right, min_add_add_right]

theorem min3_cases (a b c : β) : min3 a b c = a ∨ min3 a b c = b ∨ min3 a b c = c := by
  unfold min3
  rcases min_choice a (min b c) with h | h
  · exact Or.inl h
  · rcases min_choice b c with h2 | h2
    · exact Or.inr (Or.inl (h.trans h2))
    · exact Or.inr (Or.inr (h.trans h2))

/-- `k2 + F ≤ k1 + (k2 + E)` whenever `F ≤ k1 + E`: the recurring
rearrangement step in the snoc-decomposition proof. -/
theorem add_le_add_swap {F E k1 k2 : β} (hF : F ≤ k1 + E) : k2 + F ≤ k1 + (k2 + E) :=
  le_trans (add_le_add_left hF k2) (le_of_eq (add_left_comm k2 k1 E))

end Min3

/-! ## Lemmas about the reference edit distance `ed` -/

section EdLemmas
variable [LinearOrderedSemiring β] (cm : CostFunctions β α)

theorem ed_nil_nil : ed cm ([] : List α) [] = 0 := by rw [ed]

theorem ed_nil_cons (t : α) (ts : List α) :
    ed cm [] (t :: ts) = cm.insert t + ed cm [] ts := by rw [ed]

theorem ed_cons_nil (s : α) (ss : List α) :
    ed cm (s :: ss) [] = cm.delete s + ed cm ss [] := by rw [ed]

theorem ed_cons_cons (s t : α) (ss ts : List α) :
    ed cm (s :: ss) (t :: ts) =
      min3 (cm.substitute s t + ed cm ss ts) (cm.delete s + ed cm ss (t :: ts))
        (cm.insert t + ed cm (s :: ss) ts) := by rw [ed]

theorem ed_nil_snoc (y : α) : ∀ ts : List α,
    ed cm [] (ts ++ [y]) = ed cm [] ts + cm.insert y
  | [] => by
    rw [List.nil_append, ed_nil_cons, ed_nil_nil, add_zero, zero_add]
  | t :: ts => by
    rw [List.cons_append, ed_nil_cons cm t (ts ++ [y]), ed_nil_cons cm t ts,
      ed_nil_snoc y ts, add_assoc]

theorem ed_snoc_nil (x : α) : ∀ ss : List α,
    ed cm (ss ++ [x]) [] = ed cm ss [] + cm.delete x
  | [] => by
    rw [List.nil_append, ed_cons_nil, ed_nil_nil, add_zero, zero_add]
  | s :: ss => by
    rw [List.cons_append, ed_cons_nil cm s (ss ++ [x]), ed_cons_nil cm s ss,
      ed_snoc_nil x ss, add_assoc]

/-- The SUB branch of the `ed` recurrence as an upper bound. -/
theorem cons_le_sub (s t : α) (ss ts : List α) :
    ed cm (s :: ss) (t :: ts) ≤ cm.substitute s t + ed cm ss ts := by
  rw [ed_cons_cons]
  exact min3_le_left _ _ _

/-- The DEL branch of the `ed` recurrence as an upper bound. -/
theorem cons_le_del (s t : α) (ss ts : List α) :
    ed cm (s :: ss) (t :: ts) ≤ cm.delete s + ed cm ss (t :: ts) := by
  rw [ed_cons_cons]
  exact min3_le_mid _ _ _

/-- The INS branch of the `ed` recurrence as an upper bound. -/
theorem cons_le_ins (s t : α) (ss ts : List α) :
    ed cm (s :: ss) (t :: ts) ≤ cm.insert t + ed cm (s :: ss) ts := by
  rw [ed_cons_cons]
  exact min3_le_right _ _ _

/-- Appending one deletion to the source can raise the edit distance by at
most the deletion's cost. -/
theorem ed_snoc_del_le (x : α) : ∀ ss ts : List α,
    ed cm (ss ++ [x]) ts ≤ ed cm ss ts + cm.delete x
  | [], [] => by
    rw [List.nil_append, ed_cons_nil, ed_nil_nil, add_zero, zero_add]
  | [], t :: ts => by
    rw [List.nil_append, add_comm (ed cm [] (t :: ts)) (cm.delete x)]
    exact cons_le_del cm x t [] ts
  | s :: ss, [] => by
    rw [List.cons_append, ed_cons_nil cm s (ss ++ [x]), ed_cons_nil cm s ss, add_assoc]
    exact add_le_add_left (ed_snoc_del_le x ss []) _
  | s :: ss, t :: ts => by
    rw [List.cons_append, ed_cons_cons cm s t (ss ++ [x]) ts,
      ed_cons_cons cm s t ss ts, min3_add]
    refine min3_mono ?_ ?_ ?_
    · rw [add_assoc]
      exact add_le_add_left (ed_snoc_del_le x ss ts) _
    · rw [add_assoc]
      exact add_le_add_left (ed_snoc_del_le x ss (t :: ts)) _
    · rw [add_assoc, ← List.cons_append]
      exact add_le_add_left (ed_snoc_del_le x (s :: ss) ts) _
termination_by ss ts => (ss.length, ts.length)

/-- Appending one insertion to the target can raise the edit distance by at
most the insertion's cost. -/
theorem ed_snoc_ins_le (y : α) : ∀ ss ts : List α,
    ed cm ss (ts ++ [y]) ≤ ed cm ss ts + cm.insert y
  | [], [] => by
    rw [List.nil_append, ed_nil_cons, ed_nil_nil, add_zero, zero_add]
  | s :: ss, [] => by
    rw [List.nil_append, add_comm (ed cm (s :: ss) []) (cm.insert y)]
    exact cons_le_ins cm s y ss []
  | [], t :: ts => by
    rw [List.cons_append, ed_nil_cons cm t (ts ++ [y]), ed_nil_cons cm t ts, add_assoc]
    exact add_le_add_left (ed_snoc_ins_le y [] ts) _
  | s :: ss, t :: ts => by
    rw [List.cons_append, ed_cons_cons cm s t ss (ts ++ [y]),
      ed_cons_cons cm s t ss ts, min3_add]
    refine min3_mono ?_ ?_ ?_
    · rw [add_assoc]
      exact add_le_add_left (ed_snoc_ins_le y ss ts) _
    · rw [add_assoc, ← List.cons_append]
      exact add_le_add_left (ed_snoc_ins_le y ss (t :: ts)) _
    · rw [add_assoc]
      exact add_le_add_left (ed_snoc_ins_le y (s :: ss) ts) _
termination_by ss ts => (ss.length, ts.length)

/-- Appending one substitution pair can raise the edit distance by at most
the substitution's cost. -/
theorem ed_snoc_sub_le (x y : α) : ∀ ss ts : List α,
    ed cm (ss ++ [x]) (ts ++ [y]) ≤ ed cm ss ts + cm.substitute x y
  | [], [] => by
    simp only [List.nil_append]
    rw [ed_cons_cons cm x y [] [], ed_nil_nil, add_zero, zero_add]
    exact min3_le_left _ _ _
  | [], t :: ts => by
    rw [List.nil_append, List.cons_append, ed_cons_cons cm x t [] (ts ++ [y]),
      ed_nil_cons cm t ts, add_assoc]
    refine le_trans (min3_le_right _ _ _) (add_le_add_left ?_ _)
    have h := ed_snoc_sub_le x y [] ts
    rw [List.nil_append] at h
    exact h
  | s :: ss, [] => by
    rw [List.cons_append, List.nil_append, ed_cons_cons cm s y (ss ++ [x]) [],
      ed_cons_nil cm s ss, add_assoc]
    refine le_trans (min3_le_mid _ _ _) (add_le_add_left ?_ _)
    have h := ed_snoc_sub_le x y ss []
    rw [List.nil_append] at h
    exact h
  | s :: ss, t :: ts => by
    rw [List.cons_append, List.cons_append, ed_cons_cons cm s t (ss ++ [x]) (ts ++ [y]),
      ed_cons_cons cm s t ss ts, min3_add]
    refine min3_mono ?_ ?_ ?_
    · rw [add_assoc]
      exact add_le_add_left (ed_snoc_sub_le x y ss ts) _
    · rw [add_assoc, ← List.cons_append]
      exact add_le_add_left (ed_snoc_sub_le x y ss (t :: ts)) _
    · rw [add_assoc, ← List.cons_append]
      exact add_le_add_left (ed_snoc_sub_le x y (s :: ss) ts) _
termination_by ss ts => (ss.length, ts.length)

/-- Lower bound half of the snoc decomposition: the best of the three
last-operation splittings is at most the edit distance of the extended
sequences. -/
theorem min3_le_ed_snoc (x y : α) : ∀ ss ts : List α,
    min3 (cm.substitute x y + ed cm ss ts) (cm.delete x + ed cm ss (ts ++ [y]))
      (cm.insert y + ed cm (ss ++ [x]) ts) ≤ ed cm (ss ++ [x]) (ts ++ [y])
  | [], [] => by
    simp only [List.nil_append]
    rw [ed_cons_cons cm x y [] []]
  | [], t :: ts => by
    rw [List.nil_append, List.cons_append, ed_cons_cons cm x t [] (ts ++ [y])]
    refine le_min3 ?_ ?_ ?_
    · -- branch `sub x t + ed [] (ts ++ [y])`
      rw [ed_nil_snoc cm y ts]
      refine le_trans (min3_le_right _ _ _)
        (le_trans (add_le_add_left (cons_le_sub cm x t [] ts) _) (le_of_eq (by abel)))
    · -- branch `del x + ed [] (t :: (ts ++ [y]))`
      exact min3_le_mid _ _ _
    · -- branch `ins t + ed [x] (ts ++ [y])`
      have ih := min3_le_ed_snoc x y [] ts
      rw [List.nil_append] at ih
      refine le_trans ?_ (add_le_add_left ih _)
      rw [add_min3]
      refine le_min3 ?_ ?_ ?_
      · refine le_trans (min3_le_left _ _ _) (le_of_eq ?_)
        rw [ed_nil_cons cm t ts]
        abel
      · refine le_trans (min3_le_mid _ _ _) (le_of_eq ?_)
        rw [ed_nil_cons cm t (ts ++ [y])]
        abel
      · refine le_trans (min3_le_right _ _ _)
          (le_trans (add_le_add_left (cons_le_ins cm x t [] ts) _) (le_of_eq (by abel)))
  | s :: ss, [] => by
    rw [List.nil_append, List.cons_append, ed_cons_cons cm s y (ss ++ [x]) []]
    refine le_min3 ?_ ?_ ?_
    · -- branch `sub s y + ed (ss ++ [x]) []`
      rw [ed_snoc_nil cm x ss]
      refine le_trans (min3_le_mid _ _ _)
        (le_trans (add_le_add_left (cons_le_sub cm s y ss []) _) (le_of_eq (by abel)))
    · -- branch `del s + ed (ss ++ [x]) [y]`
      have ih := min3_le_ed_snoc x y ss []
      rw [List.nil_append] at ih
      refine le_trans ?_ (add_le_add_left ih _)
      rw [add_min3]
      refine le_min3 ?_ ?_ ?_
      · refine le_trans (min3_le_left _ _ _) (le_of_eq ?_)
        rw [ed_cons_nil cm s ss]
        abel
      · refine le_trans (min3_le_mid _ _ _)
          (le_trans (add_le_add_left (cons_le_del cm s y ss []) _) (le_of_eq (by abel)))
      · refine le_trans (min3_le_right _ _ _) (le_of_eq ?_)
        rw [ed_cons_nil cm s (ss ++ [x])]
        abel
    · -- branch `ins y + ed (s :: (ss ++ [x])) []`
      exact min3_le_right _ _ _
  | s :: ss, t :: ts => by
    rw [List.cons_append, List.cons_append, ed_cons_cons cm s t (ss ++ [x]) (ts ++ [y])]
    refine le_min3 ?_ ?_ ?_
    · -- branch `sub s t + ed (ss ++ [x]) (ts ++ [y])`
      have ih := min3_le_ed_snoc x y ss ts
      refine le_trans ?_ (add_le_add_left ih _)
      rw [add_min3]
      refine le_min3 ?_ ?_ ?_
      · exact le_trans (min3_le_left _ _ _)
          (le_trans (add_le_add_left (cons_le_sub cm s t ss ts) _) (le_of_eq (by abel)))
      · exact le_trans (min3_le_mid _ _ _)
          (le_trans (add_le_add_left (cons_le_sub cm s t ss (ts ++ [y])) _)
            (le_of_eq (by abel)))
      · exact le_trans (min3_le_right _ _ _)
          (le_trans (add_le_add_left (cons_le_sub cm s t (ss ++ [x]) ts) _)
            (le_of_eq (by abel)))
    · -- branch `del s + ed (ss ++ [x]) (t :: (ts ++ [y]))`
      have ih := min3_le_ed_snoc x y ss (t :: ts)
      rw [List.cons_append] at ih
      refine le_trans ?_ (add_le_add_left ih _)
      rw [add_min3]
      refine le_min3 ?_ ?_ ?_
      · exact le_trans (min3_le_left _ _ _)
          (le_trans (add_le_add_left (cons_le_del cm s t ss ts) _) (le_of_eq (by abel)))
      · exact le_trans (min3_le_mid _ _ _)
          (le_trans (add_le_add_left (cons_le_del cm s t ss (ts ++ [y])) _)
            (le_of_eq (by abel)))
      · exact le_trans (min3_le_right _ _ _)
          (le_trans (add_le_add_left (cons_le_del cm s t (ss ++ [x]) ts) _)
            (le_of_eq (by abel)))
    · -- branch `ins t + ed (s :: (ss ++ [x])) (ts ++ [y])`
      have ih := min3_le_ed_snoc x y (s :: ss) ts
      rw [List.cons_append] at ih
      refine le_trans ?_ (add_le_add_left ih _)
      rw [add_min3]
      refine le_min3 ?_ ?_ ?_
      · exact le_trans (min3_le_left _ _ _)
          (le_trans (add_le_add_left (cons_le_ins cm s t ss ts) _) (le_of_eq (by abel)))
      · exact le_trans (min3_le_mid _ _ _)
          (le_trans (add_le_add_left (cons_le_ins cm s t ss (ts ++ [y])) _)
            (le_of_eq (by abel)))
      · exact le_trans (min3_le_right _ _ _)
          (le_trans (add_le_add_left (cons_le_ins cm s t (ss ++ [x]) ts) _)
            (le_of_eq (by abel)))
termination_by ss ts => (ss.length, ts.length)

/-- The snoc decomposition: edit distance can equivalently be computed by
case analysis on the *last* operation.  This is the bridge between the
tabular engine (which extends prefixes on the right) and the recursive
engine (which consumes suffixes on the left). -/
theorem ed_snoc_snoc (x y : α) (ss ts : List α) :
    ed cm (ss ++ [x]) (ts ++ [y]) =
      min3 (cm.substitute x y + ed cm ss ts) (cm.delete x + ed cm ss (ts ++ [y]))
        (cm.insert y + ed cm (ss ++ [x]) ts) := by
  refine le_antisymm (le_min3 ?_ ?_ ?_) (min3_le_ed_snoc cm x y ss ts)
  · exact le_trans (ed_snoc_sub_le cm x y ss ts) (le_of_eq (add_comm _ _))
  · exact le_trans (ed_snoc_del_le cm x ss (ts ++ [y])) (le_of_eq (add_comm _ _))
  · exact le_trans (ed_snoc_ins_le cm y (ss ++ [x]) ts) (le_of_eq (add_comm _ _))
end EdLemmas

/-! ## Lemmas about the chart matrix -/

section MatrixLemmas
variable [LinearOrderedSemiring β] (cm : CostFunctions β α)

theorem matrixCell_zero_zero (s t : List α) :
    matrixCell cm s t 0 0 = ⟨0, 0, .START⟩ := rfl

theorem matrixCell_margin_targ (s t : List α) (i : ℕ) :
    matrixCell cm s t (i + 1) 0 =
      make_edited_cell cm none t[i]? (matrixCell cm s t i 0) := rfl

theorem matrixCell_margin_src (s t : List α) (j : ℕ) :
    matrixCell cm s t 0 (j + 1) =
      make_edited_cell cm s[j]? none (matrixCell cm s t 0 j) := rfl

theorem matrixCell_body (s t : List α) (i j : ℕ) :
    matrixCell cm s t (i + 1) (j + 1) =
      (let ins_cell := make_edited_cell cm none t[i]? (matrixCell cm s t i (j + 1))
       let sub_cell := make_edited_cell cm s[j]? t[i]? (matrixCell cm s t i j)
       let del_cell := make_edited_cell cm s[j]? none (matrixCell cm s t (i + 1) j)
       let min_cost := min ins_cell.cumulative_cost
         (min sub_cell.cumulative_cost del_cell.cumulative_cost)
       if min_cost = sub_cell.cumulative_cost then sub_cell
       else if min_cost = del_cell.cumulative_cost then del_cell
       else ins_cell) := rfl

/-- In-range margin cell along the target: an INSERT of `t[i]`. -/
theorem matrixCell_margin_targ_spec (s t : List α) (i : ℕ) (hi : i < t.length) :
    matrixCell cm s t (i + 1) 0 =
      ⟨cm.insert t[i], (matrixCell cm s t i 0).cumulative_cost + cm.insert t[i], .INS⟩ := by
  rw [matrixCell_margin_targ, List.getElem?_eq_getElem hi]
  rfl

/-- In-range margin cell along the source: a DELETE of `s[j]`. -/
theorem matrixCell_margin_src_spec (s t : List α) (j : ℕ) (hj : j < s.length) :
    matrixCell cm s t 0 (j + 1) =
      ⟨cm.delete s[j], (matrixCell cm s t 0 j).cumulative_cost + cm.delete s[j], .DEL⟩ := by
  rw [matrixCell_margin_src, List.getElem?_eq_getElem hj]
  rfl

/-- In-range body cell: its cumulative cost is the minimum of the three
candidate extensions, in the INS, SUB, DEL order the Python code passes to
`min`. -/
theorem matrixCell_body_cumulative (s t : List α) (i j : ℕ)
    (hi : i < t.length) (hj : j < s.length) :
    (matrixCell cm s t (i + 1) (j + 1)).cumulative_cost =
      min3 ((matrixCell cm s t i (j + 1)).cumulative_cost + cm.insert t[i])
        ((matrixCell cm s t i j).cumulative_cost + cm.substitute s[j] t[i])
        ((matrixCell cm s t (i + 1) j).cumulative_cost + cm.delete s[j]) := by
  rw [matrixCell_body, List.getElem?_eq_getElem hi, List.getElem?_eq_getElem hj]
  simp only [make_edited_cell]
  unfold min3
  by_cases hs : min ((matrixCell cm s t i (j + 1)).cumulative_cost + cm.insert t[i])
      (min ((matrixCell cm s t i j).cumulative_cost + cm.substitute s[j] t[i])
        ((matrixCell cm s t (i + 1) j).cumulative_cost + cm.delete s[j])) =
    (matrixCell cm s t i j).cumulative_cost + cm.substitute s[j] t[i]
  · rw [if_pos hs]
    exact hs.symm
  · rw [if_neg hs]
    by_cases hd : min ((matrixCell cm s t i (j + 1)).cumulative_cost + cm.insert t[i])
        (min ((matrixCell cm s t i j).cumulative_cost + cm.substitute s[j] t[i])
          ((matrixCell cm s t (i + 1) j).cumulative_cost + cm.delete s[j])) =
      (matrixCell cm s t (i + 1) j).cumulative_cost + cm.delete s[j]
    · rw [if_pos hd]
      exact hd.symm
    · rw [if_neg hd]
      rcases min_choice ((matrixCell cm s t i (j + 1)).cumulative_cost + cm.insert t[i])
        (min ((matrixCell cm s t i j).cumulative_cost + cm.substitute s[j] t[i])
          ((matrixCell cm s t (i + 1) j).cumulative_cost + cm.delete s[j])) with h | h
      · exact h.symm
      · rcases min_choice ((matrixCell cm s t i j).cumulative_cost + cm.substitute s[j] t[i])
          ((matrixCell cm s t (i + 1) j).cumulative_cost + cm.delete s[j]) with h2 | h2
        · exact absurd (h.trans h2) hs
        · exact absurd (h.trans h2) hd

/-- In-range body cell, SUB preference: when the SUB candidate attains the
minimum the cell is the SUB candidate. -/
theorem matrixCell_body_sub_pref (s t : List α) (i j : ℕ)
    (hi : i < t.length) (hj : j < s.length)
    (h : min3 ((matrixCell cm s t i (j + 1)).cumulative_cost + cm.insert t[i])
        ((matrixCell cm s t i j).cumulative_cost + cm.substitute s[j] t[i])
        ((matrixCell cm s t (i + 1) j).cumulative_cost + cm.delete s[j]) =
      (matrixCell cm s t i j).cumulative_cost + cm.substitute s[j] t[i]) :
    matrixCell cm s t (i + 1) (j + 1) =
      ⟨cm.substitute s[j] t[i],
        (matrixCell cm s t i j).cumulative_cost + cm.substitute s[j] t[i], .SUB⟩ := by
  unfold min3 at h
  rw [matrixCell_body, List.getElem?_eq_getElem hi, List.getElem?_eq_getElem hj]
  simp only [make_edited_cell]
  rw [if_pos h]

/-- In-range body cell, DEL preference: when SUB does not attain the minimum
but DEL does, the cell is the DEL candidate. -/
theorem matrixCell_body_del_pref (s t : List α) (i j : ℕ)
    (hi : i < t.length) (hj : j < s.length)
    (hns : ¬ min3 ((matrixCell cm s t i (j + 1)).cumulative_cost + cm.insert t[i])
        ((matrixCell cm s t i j).cumulative_cost + cm.substitute s[j] t[i])
        ((matrixCell cm s t (i + 1) j).cumulative_cost + cm.delete s[j]) =
      (matrixCell cm s t i j).cumulative_cost + cm.substitute s[j] t[i])
    (h : min3 ((matrixCell cm s t i (j + 1)).cumulative_cost + cm.insert t[i])
        ((matrixCell cm s t i j).cumulative_cost + cm.substitute s[j] t[i])
        ((matrixCell cm s t (i + 1) j).cumulative_cost + cm.delete s[j]) =
      (matrixCell cm s t (i + 1) j).cumulative_cost + cm.delete s[j]) :
    matrixCell cm s t (i + 1) (j + 1) =
      ⟨cm.delete s[j],
        (matrixCell cm s t (i + 1) j).cumulative_cost + cm.delete s[j], .DEL⟩ := by
  unfold min3 at hns h
  rw [matrixCell_body, List.getElem?_eq_getElem hi, List.getElem?_eq_getElem hj]
  simp only [make_edited_cell]
  rw [if_neg hns, if_pos h]

/-- In-range body cell, INS fallback: when neither SUB nor DEL attains the
minimum the cell is the INS candidate. -/
theorem matrixCell_body_ins_pref (s t : List α) (i j : ℕ)
    (hi : i < t.length) (hj : j < s.length)
    (hns : ¬ min3 ((matrixCell cm s t i (j + 1)).cumulative_cost + cm.insert t[i])
        ((matrixCell cm s t i j).cumulative_cost + cm.substitute s[j] t[i])
        ((matrixCell cm s t (i + 1) j).cumulative_cost + cm.delete s[j]) =
      (matrixCell cm s t i j).cumulative_cost + cm.substitute s[j] t[i])
    (hnd : ¬ min3 ((matrixCell cm s t i (j + 1)).cumulative_cost + cm.insert t[i])
        ((matrixCell cm s t i j).cumulative_cost + cm.substitute s[j] t[i])
        ((matrixCell cm s t (i + 1) j).cumulative_cost + cm.delete s[j]) =
      (matrixCell cm s t (i + 1) j).cumulative_cost + cm.delete s[j]) :
    matrixCell cm s t (i + 1) (j + 1) =
      ⟨cm.insert t[i],
        (matrixCell cm s t i (j + 1)).cumulative_cost + cm.insert t[i], .INS⟩ := by
  unfold min3 at hns hnd
  rw [matrixCell_body, List.getElem?_eq_getElem hi, List.getElem?_eq_getElem hj]
  simp only [make_edited_cell]
  rw [if_neg hns, if_neg hnd]

/-- In-range body cell: it is one of the three explicit candidates. -/
theorem matrixCell_body_cases (s t : List α) (i j : ℕ)
    (hi : i < t.length) (hj : j < s.length) :
    matrixCell cm s t (i + 1) (j + 1) =
        ⟨cm.substitute s[j] t[i],
          (matrixCell cm s t i j).cumulative_cost + cm.substitute s[j] t[i], .SUB⟩ ∨
      matrixCell cm s t (i + 1) (j + 1) =
        ⟨cm.delete s[j],
          (matrixCell cm s t (i + 1) j).cumulative_cost + cm.delete s[j], .DEL⟩ ∨
      matrixCell cm s t (i + 1) (j + 1) =
        ⟨cm.insert t[i],
          (matrixCell cm s t i (j + 1)).cumulative_cost + cm.insert t[i], .INS⟩ := by
  by_cases hs : min3 ((matrixCell cm s t i (j + 1)).cumulative_cost + cm.insert t[i])
      ((matrixCell cm s t i j).cumulative_cost + cm.substitute s[j] t[i])
      ((matrixCell cm s t (i + 1) j).cumulative_cost + cm.delete s[j]) =
    (matrixCell cm s t i j).cumulative_cost + cm.substitute s[j] t[i]
  · exact Or.inl (matrixCell_body_sub_pref cm s t i j hi hj hs)
  by_cases hd : min3 ((matrixCell cm s t i (j + 1)).cumulative_cost + cm.insert t[i])
      ((matrixCell cm s t i j).cumulative_cost + cm.substitute s[j] t[i])
      ((matrixCell cm s t (i + 1) j).cumulative_cost + cm.delete s[j]) =
    (matrixCell cm s t (i + 1) j).cumulative_cost + cm.delete s[j]
  · exact Or.inr (Or.inl (matrixCell_body_del_pref cm s t i j hi hj hs hd))
  · exact Or.inr (Or.inr (matrixCell_body_ins_pref cm s t i j hi hj hs hd))

/-- `min3 a b c` rotated. -/
theorem min3_rotate (a b c : β) : min3 a b c = min3 b c a := by
  unfold min3
  rw [min_comm a (min b c), min_assoc]

/-- The in-range matrix cumulative costs are the edit distances of the
consumed prefixes. -/
theorem matrixCell_cumulative_eq_ed (s t : List α) : ∀ i j, i ≤ t.length → j ≤ s.length →
    (matrixCell cm s t i j).cumulative_cost = ed cm (s.take j) (t.take i)
  | 0, 0, _, _ => by
    rw [matrixCell_zero_zero, List.take_zero, List.take_zero, ed_nil_nil]
  | i + 1, 0, hi, _ => by
    have hi2 : i < t.length := hi
    rw [matrixCell_margin_targ_spec cm s t i hi2, List.take_zero,
      List.take_succ, List.getElem?_eq_getElem hi2]
    show (matrixCell cm s t i 0).cumulative_cost + cm.insert t[i] =
      ed cm [] (t.take i ++ [t[i]])
    rw [ed_nil_snoc, matrixCell_cumulative_eq_ed s t i 0 (le_of_lt hi2) (Nat.zero_le _),
      List.take_zero]
  | 0, j + 1, _, hj => by
    have hj2 : j < s.length := hj
    rw [matrixCell_margin_src_spec cm s t j hj2, List.take_zero,
      List.take_succ, List.getElem?_eq_getElem hj2]
    show (matrixCell cm s t 0 j).cumulative_cost + cm.delete s[j] =
      ed cm (s.take j ++ [s[j]]) []
    rw [ed_snoc_nil, matrixCell_cumulative_eq_ed s t 0 j (Nat.zero_le _) (le_of_lt hj2),
      List.take_zero]
  | i + 1, j + 1, hi, hj => by
    have hi2 : i < t.length := hi
    have hj2 : j < s.length := hj
    rw [matrixCell_body_cumulative cm s t i j hi2 hj2,
      matrixCell_cumulative_eq_ed s t i (j + 1) (le_of_lt hi2) hj,
      matrixCell_cumulative_eq_ed s t i j (le_of_lt hi2) (le_of_lt hj2),
      matrixCell_cumulative_eq_ed s t (i + 1) j hi (le_of_lt hj2),
      List.take_succ, List.take_succ,
      List.getElem?_eq_getElem hi2, List.getElem?_eq_getElem hj2]
    show min3 (ed cm (s.take j ++ [s[j]]) (t.take i) + cm.insert t[i])
        (ed cm (s.take j) (t.take i) + cm.substitute s[j] t[i])
        (ed cm (s.take j) (t.take i ++ [t[i]]) + cm.delete s[j]) =
      ed cm (s.take j ++ [s[j]]) (t.take i ++ [t[i]])
    rw [ed_snoc_snoc cm s[j] t[i] (s.take j) (t.take i),
      add_comm (ed cm (s.take j ++ [s[j]]) (t.take i)) (cm.insert t[i]),
      add_comm (ed cm (s.take j) (t.take i)) (cm.substitute s[j] t[i]),
      add_comm (ed cm (s.take j) (t.take i ++ [t[i]])) (cm.delete s[j]),
      min3_rotate]
termination_by i j => (i, j)

/-- The final matrix cell is the edit distance of the full sequences. -/
theorem min_edit_distanceM_eq_ed (s t : List α) :
    min_edit_distanceM cm s t = ed cm s t := by
  have h := matrixCell_cumulative_eq_ed cm s t t.length s.length le_rfl le_rfl
  rwa [List.take_length, List.take_length] at h

end MatrixLemmas

/-! ## Lemmas about the enumerator -/

section XducerLemmas
variable [LinearOrderedSemiring β]

theorem foldl_min_le_init : ∀ (cs : List β) (acc : β), cs.foldl min acc ≤ acc
  | [], _ => le_rfl
  | c :: cs, acc => le_trans (foldl_min_le_init cs (min acc c)) (min_le_left _ _)

theorem foldl_min_le_mem : ∀ (cs : List β) (acc : β) (x : β), x ∈ cs → cs.foldl min acc ≤ x
  | c :: cs, acc, x, hx => by
    rcases List.mem_cons.mp hx with h | h
    · subst h
      exact le_trans (foldl_min_le_init cs (min acc x)) (min_le_right _ _)
    · exact foldl_min_le_mem cs (min acc c) x h

theorem foldl_min_mem_or : ∀ (cs : List β) (acc : β),
    cs.foldl min acc = acc ∨ cs.foldl min acc ∈ cs
  | [], _ => Or.inl rfl
  | c :: cs, acc => by
    rcases foldl_min_mem_or cs (min acc c) with h | h
    · rw [List.foldl_cons, h]
      rcases min_choice acc c with h2 | h2
      · exact Or.inl h2
      · refine Or.inr ?_
        rw [h2]
        exact List.mem_cons_self c cs
    · exact Or.inr (List.mem_cons_of_mem c h)

/-- `list_min` is a lower bound of the list. -/
theorem list_min_le {l : List β} {a : β} (h : a ∈ l) : list_min l ≤ a := by
  cases l with
  | nil => exact absurd h (List.not_mem_nil a)
  | cons c cs =>
    rcases List.mem_cons.mp h with h2 | h2
    · subst h2
      exact foldl_min_le_init cs a
    · exact foldl_min_le_mem cs c a h2

/-- `list_min` of a non-empty list is attained. -/
theorem list_min_mem {l : List β} (h : l ≠ []) : list_min l ∈ l := by
  cases l with
  | nil => exact absurd rfl h
  | cons c cs =>
    show cs.foldl min c ∈ c :: cs
    rcases foldl_min_mem_or cs c with h2 | h2
    · rw [h2]
      exact List.mem_cons_self c cs
    · exact List.mem_cons_of_mem c h2

theorem take_one_ne_nil {γ : Type} {l : List γ} (h : l ≠ []) : l.take 1 ≠ [] := by
  cases l with
  | nil => exact absurd rfl h
  | cons a l => simp

/-- What survives `remove_suboptimal_parses`: a non-empty selection of
members of the input whose cost is the minimum cost of the input. -/
theorem remove_suboptimal_facts (parses : Parses β α) (jo : Bool) (h : parses ≠ []) :
    remove_suboptimal_parses parses jo ≠ [] ∧
    ∀ p ∈ remove_suboptimal_parses parses jo,
      p ∈ parses ∧ parse_cost p = list_min (parses.map parse_cost) := by
  have hmapne : parses.map parse_cost ≠ [] := fun hh => h (List.map_eq_nil_iff.mp hh)
  obtain ⟨p0, hp0, hp0c⟩ := List.mem_map.mp (list_min_mem hmapne)
  have hp0f : p0 ∈ parses.filter
      fun p => decide (parse_cost p = list_min (parses.map parse_cost)) :=
    List.mem_filter.mpr ⟨hp0, by simp [hp0c]⟩
  have hfne : parses.filter
      (fun p => decide (parse_cost p = list_min (parses.map parse_cost))) ≠ [] :=
    List.ne_nil_of_mem hp0f
  constructor
  · cases jo with
    | false => simpa [remove_suboptimal_parses] using hfne
    | true =>
      simp only [remove_suboptimal_parses, if_true]
      exact take_one_ne_nil hfne
  · intro p hp
    have hp2 : p ∈ parses.filter
        fun q => decide (parse_cost q = list_min (parses.map parse_cost)) := by
      cases jo with
      | false => simpa [remove_suboptimal_parses] using hp
      | true =>
        simp only [remove_suboptimal_parses, if_true] at hp
        exact List.take_subset 1 _ hp
    obtain ⟨hmem, hcost⟩ := List.mem_filter.mp hp2
    exact ⟨hmem, of_decide_eq_true hcost⟩

/-- What `try_op` produces, given the recursion's results for the remaining
suffixes: a non-empty set of non-empty parses, each recording the operation's
elements in front of the suffix reconstruction, each costing the operation's
cost plus the minimal suffix cost, with cumulative head cost equal to the sum
of the step costs. -/
theorem try_op_facts (cm : CostFunctions β α) (c : β) (so tgt : Option α)
    (ss2 ts2 : List α) (tail : Parses β α)
    (hempty : tail = [] ↔ ss2 = [] ∧ ts2 = [])
    (hfacts : ∀ q ∈ tail,
      parse_cost q = ed cm ss2 ts2 ∧ sum_this q = parse_cost q ∧
      src_elements q = ss2 ∧ targ_elements q = ts2 ∧ q ≠ []) :
    try_op_result ⟨so, tgt, c, c⟩ tail ≠ [] ∧
    ∀ p ∈ try_op_result ⟨so, tgt, c, c⟩ tail,
      parse_cost p = c + ed cm ss2 ts2 ∧ sum_this p = parse_cost p ∧
      src_elements p = so.toList ++ ss2 ∧ targ_elements p = tgt.toList ++ ts2 ∧
      p ≠ [] := by
  cases tail with
  | nil =>
    obtain ⟨hss, hts⟩ := hempty.mp rfl
    subst hss
    subst hts
    constructor
    · simp [try_op_result]
    · intro p hp
      simp only [try_op_result, List.isEmpty_nil, if_true, List.mem_singleton] at hp
      subst hp
      refine ⟨?_, ?_, ?_, ?_, List.cons_ne_nil _ _⟩
      · rw [ed_nil_nil, add_zero]
        rfl
      · simp [sum_this, parse_cost]
      · cases so <;> simp [src_elements]
      · cases tgt <;> simp [targ_elements]
  | cons q qs =>
    constructor
    · simp [try_op_result]
    · intro p hp
      simp only [try_op_result, List.isEmpty_cons, if_false, List.mem_map,
        Bool.false_eq_true] at hp
      obtain ⟨q2, hq2, rfl⟩ := hp
      obtain ⟨hc, hsum, hsrc, htarg, hne⟩ := hfacts q2 hq2
      refine ⟨?_, ?_, ?_, ?_, List.cons_ne_nil _ _⟩
      · show c + parse_cost q2 = c + ed cm ss2 ts2
        rw [hc]
      · show sum_this (⟨so, tgt, c, c + parse_cost q2⟩ :: q2) = c + parse_cost q2
        rw [sum_this, List.map_cons, List.sum_cons]
        show c + sum_this q2 = c + parse_cost q2
        rw [hsum]
      · show src_elements (⟨so, tgt, c, c + parse_cost q2⟩ :: q2) = so.toList ++ ss2
        rw [src_elements, List.filterMap_cons]
        cases so with
        | none => simpa [src_elements] using hsrc
        | some a => simpa [src_elements] using hsrc
      · show targ_elements (⟨so, tgt, c, c + parse_cost q2⟩ :: q2) = tgt.toList ++ ts2
        rw [targ_elements, List.filterMap_cons]
        cases tgt with
        | none => simpa [targ_elements] using htarg
        | some a => simpa [targ_elements] using htarg

theorem parseL_nil_nil (cm : CostFunctions β α) (jo : Bool) :
    parseL cm jo ([] : List α) [] = [] := rfl

theorem parseL_nil_cons (cm : CostFunctions β α) (jo : Bool) (t : α) (ts : List α) :
    parseL cm jo [] (t :: ts) =
      (if (try_op_result ⟨none, some t, cm.insert t, cm.insert t⟩
          (parseL cm jo [] ts)).isEmpty
       then try_op_result ⟨none, some t, cm.insert t, cm.insert t⟩ (parseL cm jo [] ts)
       else remove_suboptimal_parses
         (try_op_result ⟨none, some t, cm.insert t, cm.insert t⟩ (parseL cm jo [] ts))
         jo) := rfl

theorem parseL_cons_nil (cm : CostFunctions β α) (jo : Bool) (s : α) (ss : List α) :
    parseL cm jo (s :: ss) [] =
      (if (try_op_result ⟨some s, none, cm.delete s, cm.delete s⟩
          (parseL cm jo ss [])).isEmpty
       then try_op_result ⟨some s, none, cm.delete s, cm.delete s⟩ (parseL cm jo ss [])
       else remove_suboptimal_parses
         (try_op_result ⟨some s, none, cm.delete s, cm.delete s⟩ (parseL cm jo ss []))
         jo) := rfl

theorem parseL_cons_cons (cm : CostFunctions β α) (jo : Bool) (s t : α) (ss ts : List α) :
    parseL cm jo (s :: ss) (t :: ts) =
      (if (try_op_result ⟨some s, some t, cm.substitute s t, cm.substitute s t⟩
            (parseL cm jo ss ts)
          ++ try_op_result ⟨some s, none, cm.delete s, cm.delete s⟩
            (parseL cm jo ss (t :: ts))
          ++ try_op_result ⟨none, some t, cm.insert t, cm.insert t⟩
            (parseL cm jo (s :: ss) ts)).isEmpty
       then try_op_result ⟨some s, some t, cm.substitute s t, cm.substitute s t⟩
            (parseL cm jo ss ts)
          ++ try_op_result ⟨some s, none, cm.delete s, cm.delete s⟩
            (parseL cm jo ss (t :: ts))
          ++ try_op_result ⟨none, some t, cm.insert t, cm.insert t⟩
            (parseL cm jo (s :: ss) ts)
       else remove_suboptimal_parses
         (try_op_result ⟨some s, some t, cm.substitute s t, cm.substitute s t⟩
            (parseL cm jo ss ts)
          ++ try_op_result ⟨some s, none, cm.delete s, cm.delete s⟩
            (parseL cm jo ss (t :: ts))
          ++ try_op_result ⟨none, some t, cm.insert t, cm.insert t⟩
            (parseL cm jo (s :: ss) ts))
         jo) := rfl

theorem isEmpty_false_of_ne_nil {γ : Type} {l : List γ} (h : l ≠ []) :
    l.isEmpty = false := by
  cases l with
  | nil => exact absurd rfl h
  | cons a l => rfl

/-- The master invariant of the enumerator: `parse` returns no parses
exactly on two empty suffixes, and each returned parse is non-empty, costs
exactly the suffix edit distance, has cumulative head cost equal to the sum
of its step costs, and reconstructs the two suffixes. -/
theorem parseL_spec (cm : CostFunctions β α) (jo : Bool) : ∀ ss ts : List α,
    (parseL cm jo ss ts = [] ↔ ss = [] ∧ ts = []) ∧
    ∀ p ∈ parseL cm jo ss ts,
      parse_cost p = ed cm ss ts ∧ sum_this p = parse_cost p ∧
      src_elements p = ss ∧ targ_elements p = ts ∧ p ≠ []
  | [], [] => by
    refine ⟨by simp [parseL_nil_nil], ?_⟩
    intro p hp
    rw [parseL_nil_nil] at hp
    exact absurd hp (List.not_mem_nil p)
  | [], t :: ts => by
    obtain ⟨ihs, ihm⟩ := parseL_spec cm jo [] ts
    obtain ⟨hne, hmem⟩ := try_op_facts cm (cm.insert t) none (some t) [] ts
      (parseL cm jo [] ts) (by simpa using ihs) ihm
    rw [parseL_nil_cons,
      if_neg (by rw [isEmpty_false_of_ne_nil hne]; exact Bool.false_ne_true)]
    obtain ⟨hrne, hrmem⟩ := remove_suboptimal_facts _ jo hne
    have hmin : list_min ((try_op_result ⟨none, some t, cm.insert t, cm.insert t⟩
        (parseL cm jo [] ts)).map parse_cost) = ed cm [] (t :: ts) := by
      apply le_antisymm
      · obtain ⟨p0, hp0⟩ := List.exists_mem_of_ne_nil _ hne
        refine le_trans (list_min_le (List.mem_map_of_mem parse_cost hp0)) ?_
        rw [(hmem p0 hp0).1, ed_nil_cons]
      · have hmapne : (try_op_result ⟨none, some t, cm.insert t, cm.insert t⟩
            (parseL cm jo [] ts)).map parse_cost ≠ [] :=
          fun hh => hne (List.map_eq_nil_iff.mp hh)
        obtain ⟨q, hq, hq2⟩ := List.mem_map.mp (list_min_mem hmapne)
        rw [← hq2, (hmem q hq).1, ed_nil_cons]
    refine ⟨⟨fun h => absurd h hrne, fun h => absurd h.2 (List.cons_ne_nil t ts)⟩, ?_⟩
    intro p hp
    obtain ⟨hpc, hps⟩ := hrmem p hp
    obtain ⟨h1, h2, h3, h4, h5⟩ := hmem p hpc
    exact ⟨by rw [hps, hmin], h2, by simpa using h3, by simpa using h4, h5⟩
  | s :: ss, [] => by
    obtain ⟨ihs, ihm⟩ := parseL_spec cm jo ss []
    obtain ⟨hne, hmem⟩ := try_op_facts cm (cm.delete s) (some s) none ss []
      (parseL cm jo ss []) (by simpa using ihs) ihm
    rw [parseL_cons_nil,
      if_neg (by rw [isEmpty_false_of_ne_nil hne]; exact Bool.false_ne_true)]
    obtain ⟨hrne, hrmem⟩ := remove_suboptimal_facts _ jo hne
    have hmin : list_min ((try_op_result ⟨some s, none, cm.delete s, cm.delete s⟩
        (parseL cm jo ss [])).map parse_cost) = ed cm (s :: ss) [] := by
      apply le_antisymm
      · obtain ⟨p0, hp0⟩ := List.exists_mem_of_ne_nil _ hne
        refine le_trans (list_min_le (List.mem_map_of_mem parse_cost hp0)) ?_
        rw [(hmem p0 hp0).1, ed_cons_nil]
      · have hmapne : (try_op_result ⟨some s, none, cm.delete s, cm.delete s⟩
            (parseL cm jo ss [])).map parse_cost ≠ [] :=
          fun hh => hne (List.map_eq_nil_iff.mp hh)
        obtain ⟨q, hq, hq2⟩ := List.mem_map.mp (list_min_mem hmapne)
        rw [← hq2, (hmem q hq).1, ed_cons_nil]
    refine ⟨⟨fun h => absurd h hrne, fun h => absurd h.1 (List.cons_ne_nil s ss)⟩, ?_⟩
    intro p hp
    obtain ⟨hpc, hps⟩ := hrmem p hp
    obtain ⟨h1, h2, h3, h4, h5⟩ := hmem p hpc
    exact ⟨by rw [hps, hmin], h2, by simpa using h3, by simpa using h4, h5⟩
  | s :: ss, t :: ts => by
    obtain ⟨ihs1, ihm1⟩ := parseL_spec cm jo ss ts
    obtain ⟨ihs2, ihm2⟩ := parseL_spec cm jo ss (t :: ts)
    obtain ⟨ihs3, ihm3⟩ := parseL_spec cm jo (s :: ss) ts
    obtain ⟨hne1, hmem1⟩ := try_op_facts cm (cm.substitute s t) (some s) (some t) ss ts
      (parseL cm jo ss ts) ihs1 ihm1
    obtain ⟨hne2, hmem2⟩ := try_op_facts cm (cm.delete s) (some s) none ss (t :: ts)
      (parseL cm jo ss (t :: ts)) ihs2 ihm2
    obtain ⟨hne3, hmem3⟩ := try_op_facts cm (cm.insert t) none (some t) (s :: ss) ts
      (parseL cm jo (s :: ss) ts) ihs3 ihm3
    have hcatne : try_op_result ⟨some s, some t, cm.substitute s t, cm.substitute s t⟩
          (parseL cm jo ss ts)
        ++ try_op_result ⟨some s, none, cm.delete s, cm.delete s⟩
          (parseL cm jo ss (t :: ts))
        ++ try_op_result ⟨none, some t, cm.insert t, cm.insert t⟩
          (parseL cm jo (s :: ss) ts) ≠ [] := by
      intro hh
      obtain ⟨hh1, -⟩ := List.append_eq_nil.mp hh
      obtain ⟨hh2, -⟩ := List.append_eq_nil.mp hh1
      exact hne1 hh2
    rw [parseL_cons_cons,
      if_neg (by rw [isEmpty_false_of_ne_nil hcatne]; exact Bool.false_ne_true)]
    obtain ⟨hrne, hrmem⟩ := remove_suboptimal_facts _ jo hcatne
    have hall : ∀ p ∈ try_op_result ⟨some s, some t, cm.substitute s t, cm.substitute s t⟩
          (parseL cm jo ss ts)
        ++ try_op_result ⟨some s, none, cm.delete s, cm.delete s⟩
          (parseL cm jo ss (t :: ts))
        ++ try_op_result ⟨none, some t, cm.insert t, cm.insert t⟩
          (parseL cm jo (s :: ss) ts),
        (parse_cost p = cm.substitute s t + ed cm ss ts ∨
          parse_cost p = cm.delete s + ed cm ss (t :: ts) ∨
          parse_cost p = cm.insert t + ed cm (s :: ss) ts) ∧
        sum_this p = parse_cost p ∧ src_elements p = s :: ss ∧
        targ_elements p = t :: ts ∧ p ≠ [] := by
      intro p hp
      rcases List.mem_append.mp hp with hp12 | hp3
      · rcases List.mem_append.mp hp12 with hp1 | hp2
        · obtain ⟨h1, h2, h3, h4, h5⟩ := hmem1 p hp1
          exact ⟨Or.inl h1, h2, by simpa using h3, by simpa using h4, h5⟩
        · obtain ⟨h1, h2, h3, h4, h5⟩ := hmem2 p hp2
          exact ⟨Or.inr (Or.inl h1), h2, by simpa using h3, by simpa using h4, h5⟩
      · obtain ⟨h1, h2, h3, h4, h5⟩ := hmem3 p hp3
        exact ⟨Or.inr (Or.inr h1), h2, by simpa using h3, by simpa using h4, h5⟩
    have hmin : list_min ((try_op_result
          ⟨some s, some t, cm.substitute s t, cm.substitute s t⟩ (parseL cm jo ss ts)
        ++ try_op_result ⟨some s, none, cm.delete s, cm.delete s⟩
          (parseL cm jo ss (t :: ts))
        ++ try_op_result ⟨none, some t, cm.insert t, cm.insert t⟩
          (parseL cm jo (s :: ss) ts)).map parse_cost) = ed cm (s :: ss) (t :: ts) := by
      apply le_antisymm
      · rw [ed_cons_cons]
        refine le_min3 ?_ ?_ ?_
        · obtain ⟨p1, hp1⟩ := List.exists_mem_of_ne_nil _ hne1
          refine le_trans (list_min_le (List.mem_map_of_mem parse_cost
            (List.mem_append_left _ (List.mem_append_left _ hp1)))) ?_
          exact le_of_eq (hmem1 p1 hp1).1
        · obtain ⟨p2, hp2⟩ := List.exists_mem_of_ne_nil _ hne2
          refine le_trans (list_min_le (List.mem_map_of_mem parse_cost
            (List.mem_append_left _ (List.mem_append_right _ hp2)))) ?_
          exact le_of_eq (hmem2 p2 hp2).1
        · obtain ⟨p3, hp3⟩ := List.exists_mem_of_ne_nil _ hne3
          refine le_trans (list_min_le (List.mem_map_of_mem parse_cost
            (List.mem_append_right _ hp3))) ?_
          exact le_of_eq (hmem3 p3 hp3).1
      · have hmapne : (try_op_result
              ⟨some s, some t, cm.substitute s t, cm.substitute s t⟩ (parseL cm jo ss ts)
            ++ try_op_result ⟨some s, none, cm.delete s, cm.delete s⟩
              (parseL cm jo ss (t :: ts))
            ++ try_op_result ⟨none, some t, cm.insert t, cm.insert t⟩
              (parseL cm jo (s :: ss) ts)).map parse_cost ≠ [] :=
          fun hh => hcatne (List.map_eq_nil_iff.mp hh)
        obtain ⟨q, hq, hq2⟩ := List.mem_map.mp (list_min_mem hmapne)
        rw [← hq2, ed_cons_cons]
        rcases (hall q hq).1 with h | h | h
        · rw [h]
          exact min3_le_left _ _ _
        · rw [h]
          exact min3_le_mid _ _ _
        · rw [h]
          exact min3_le_right _ _ _
    refine ⟨⟨fun h => absurd h hrne, fun h => absurd h.1 (List.cons_ne_nil s ss)⟩, ?_⟩
    intro p hp
    obtain ⟨hpc, hps⟩ := hrmem p hp
    obtain ⟨h1, h2, h3, h4, h5⟩ := hall p hpc
    exact ⟨by rw [hps, hmin], h2, h3, h4, h5⟩
termination_by ss ts => (ss.length, ts.length)

/-- Every parse `relate` returns costs exactly the edit distance of the two
sequences. -/
theorem relateL_cost (cm : CostFunctions β α) (jo : Bool) (source target : List α)
    (p : Parse β α) (hp : p ∈ relateL cm jo source target) :
    parse_cost p = ed cm source target :=
  ((parseL_spec cm jo source target).2 p hp).1

/-- Every parse `relate` returns reconstructs the source and the target from
its non-absent elements. -/
theorem relateL_reconstruct (cm : CostFunctions β α) (jo : Bool)
    (source target : List α) (p : Parse β α) (hp : p ∈ relateL cm jo source target) :
    src_elements p = source ∧ targ_elements p = target :=
  ⟨((parseL_spec cm jo source target).2 p hp).2.2.1,
    ((parseL_spec cm jo source target).2 p hp).2.2.2.1⟩

/-- The cumulative cost stored in the head cell of a returned parse equals
the sum of the per-step costs. -/
theorem relateL_sum_this (cm : CostFunctions β α) (jo : Bool)
    (source target : List α) (p : Parse β α) (hp : p ∈ relateL cm jo source target) :
    sum_this p = parse_cost p :=
  ((parseL_spec cm jo source target).2 p hp).2.1

/-- `relate` returns no parses exactly on two empty sequences. -/
theorem relateL_eq_nil_iff (cm : CostFunctions β α) (jo : Bool)
    (source target : List α) :
    relateL cm jo source target = [] ↔ source = [] ∧ target = [] :=
  (parseL_spec cm jo source target).1

end XducerLemmas

/-! ## Lemmas about the chart backtrace -/

theorem bt_src_append (l1 l2 : List (EditStep β α)) :
    bt_src_elements (l1 ++ l2) = bt_src_elements l1 ++ bt_src_elements l2 :=
  List.filterMap_append l1 l2 _

theorem bt_targ_append (l1 l2 : List (EditStep β α)) :
    bt_targ_elements (l1 ++ l2) = bt_targ_elements l1 ++ bt_targ_elements l2 :=
  List.filterMap_append l1 l2 _

theorem bt_sum_append [AddCommMonoid β] (l1 l2 : List (EditStep β α)) :
    bt_sum_this (l1 ++ l2) = bt_sum_this l1 + bt_sum_this l2 := by
  rw [bt_sum_this, List.map_append, List.sum_append]
  rfl

section BacktraceLemmas
variable [LinearOrderedSemiring β] (cm : CostFunctions β α) (s t : List α)

theorem backtraceAux_origin : ∀ fuel, backtraceAux cm s t fuel 0 0 = []
  | 0 => rfl
  | _ + 1 => by simp [backtraceAux]

theorem backtraceAux_succ_sub (fuel i j : ℕ) (h : ¬(i = 0 ∧ j = 0))
    (hop : (matrixCell cm s t i j).operation = .SUB) :
    backtraceAux cm s t (fuel + 1) i j =
      backtraceAux cm s t fuel (i - 1) (j - 1) ++
        [⟨s[j - 1]?, t[i - 1]?, matrixCell cm s t i j⟩] := by
  simp only [backtraceAux]
  rw [if_neg h, hop]

theorem backtraceAux_succ_ins (fuel i j : ℕ) (h : ¬(i = 0 ∧ j = 0))
    (hop : (matrixCell cm s t i j).operation = .INS) :
    backtraceAux cm s t (fuel + 1) i j =
      backtraceAux cm s t fuel (i - 1) j ++
        [⟨none, t[i - 1]?, matrixCell cm s t i j⟩] := by
  simp only [backtraceAux]
  rw [if_neg h, hop]

theorem backtraceAux_succ_del (fuel i j : ℕ) (h : ¬(i = 0 ∧ j = 0))
    (hop : (matrixCell cm s t i j).operation = .DEL) :
    backtraceAux cm s t (fuel + 1) i j =
      backtraceAux cm s t fuel i (j - 1) ++
        [⟨s[j - 1]?, none, matrixCell cm s t i j⟩] := by
  simp only [backtraceAux]
  rw [if_neg h, hop]

/-- The master invariant of the chart backtrace walk from in-range
coordinates, with enough fuel: the steps reconstruct the two consumed
prefixes, their incremental costs sum to the cell's cumulative cost, the
walk is empty exactly at the origin, and the final step carries the starting
cell. -/
theorem backtraceAux_spec : ∀ fuel i j, i ≤ t.length → j ≤ s.length → i + j ≤ fuel →
    bt_src_elements (backtraceAux cm s t fuel i j) = s.take j ∧
    bt_targ_elements (backtraceAux cm s t fuel i j) = t.take i ∧
    bt_sum_this (backtraceAux cm s t fuel i j) =
      (matrixCell cm s t i j).cumulative_cost ∧
    (backtraceAux cm s t fuel i j = [] ↔ i = 0 ∧ j = 0) ∧
    (¬(i = 0 ∧ j = 0) → ∃ st : EditStep β α,
      (backtraceAux cm s t fuel i j).getLast? = some st ∧
      st.cell = matrixCell cm s t i j)
  | fuel, 0, 0, _, _, _ => by
    rw [backtraceAux_origin]
    refine ⟨by simp [bt_src_elements], by simp [bt_targ_elements],
      by simp [bt_sum_this, matrixCell_zero_zero], by simp, ?_⟩
    intro h
    exact absurd ⟨rfl, rfl⟩ h
  | 0, i + 1, j, _, _, hfuel => by omega
  | 0, 0, j + 1, _, _, hfuel => by omega
  | fuel + 1, i + 1, 0, hi, _, hfuel => by
    have hi2 : i < t.length := hi
    have hcell := matrixCell_margin_targ_spec cm s t i hi2
    have hop : (matrixCell cm s t (i + 1) 0).operation = .INS := by rw [hcell]
    rw [backtraceAux_succ_ins cm s t fuel (i + 1) 0 (by simp) hop]
    obtain ⟨h1, h2, h3, h4, h5⟩ := backtraceAux_spec fuel i 0 (le_of_lt hi2)
      (Nat.zero_le _) (by omega)
    simp only [Nat.add_sub_cancel]
    refine ⟨?_, ?_, ?_, by simp, ?_⟩
    · rw [bt_src_append, h1]
      simp [bt_src_elements]
    · rw [bt_targ_append, h2, List.take_succ, List.getElem?_eq_getElem hi2]
      simp [bt_targ_elements, List.getElem?_eq_getElem hi2]
    · rw [bt_sum_append, h3, hcell]
      simp [bt_sum_this]
    · intro h
      exact ⟨_, List.getLast?_concat _, rfl⟩
  | fuel + 1, 0, j + 1, _, hj, hfuel => by
    have hj2 : j < s.length := hj
    have hcell := matrixCell_margin_src_spec cm s t j hj2
    have hop : (matrixCell cm s t 0 (j + 1)).operation = .DEL := by rw [hcell]
    rw [backtraceAux_succ_del cm s t fuel 0 (j + 1) (by simp) hop]
    obtain ⟨h1, h2, h3, h4, h5⟩ := backtraceAux_spec fuel 0 j (Nat.zero_le _)
      (le_of_lt hj2) (by omega)
    simp only [Nat.add_sub_cancel]
    refine ⟨?_, ?_, ?_, by simp, ?_⟩
    · rw [bt_src_append, h1, List.take_succ, List.getElem?_eq_getElem hj2]
      simp [bt_src_elements, List.getElem?_eq_getElem hj2]
    · rw [bt_targ_append, h2]
      simp [bt_targ_elements]
    · rw [bt_sum_append, h3, hcell]
      simp [bt_sum_this]
    · intro h
      exact ⟨_, List.getLast?_concat _, rfl⟩
  | fuel + 1, i + 1, j + 1, hi, hj, hfuel => by
    have hi2 : i < t.length := hi
    have hj2 : j < s.length := hj
    rcases matrixCell_body_cases cm s t i j hi2 hj2 with hcell | hcell | hcell
    · -- SUB cell
      have hop : (matrixCell cm s t (i + 1) (j + 1)).operation = .SUB := by rw [hcell]
      rw [backtraceAux_succ_sub cm s t fuel (i + 1) (j + 1) (by simp) hop]
      obtain ⟨h1, h2, h3, h4, h5⟩ := backtraceAux_spec fuel i j (le_of_lt hi2)
        (le_of_lt hj2) (by omega)
      simp only [Nat.add_sub_cancel]
      refine ⟨?_, ?_, ?_, by simp, ?_⟩
      · rw [bt_src_append, h1, List.take_succ, List.getElem?_eq_getElem hj2]
        simp [bt_src_elements, List.getElem?_eq_getElem hj2]
      · rw [bt_targ_append, h2, List.take_succ, List.getElem?_eq_getElem hi2]
        simp [bt_targ_elements, List.getElem?_eq_getElem hi2]
      · rw [bt_sum_append, h3, hcell]
        simp [bt_sum_this]
      · intro h
        exact ⟨_, List.getLast?_concat _, rfl⟩
    · -- DEL cell
      have hop : (matrixCell cm s t (i + 1) (j + 1)).operation = .DEL := by rw [hcell]
      rw [backtraceAux_succ_del cm s t fuel (i + 1) (j + 1) (by simp) hop]
      obtain ⟨h1, h2, h3, h4, h5⟩ := backtraceAux_spec fuel (i + 1) j hi
        (le_of_lt hj2) (by omega)
      simp only [Nat.add_sub_cancel]
      refine ⟨?_, ?_, ?_, by simp, ?_⟩
      · rw [bt_src_append, h1, List.take_succ, List.getElem?_eq_getElem hj2]
        simp [bt_src_elements, List.getElem?_eq_getElem hj2]
      · rw [bt_targ_append, h2]
        simp [bt_targ_elements]
      · rw [bt_sum_append, h3, hcell]
        simp [bt_sum_this]
      · intro h
        exact ⟨_, List.getLast?_concat _, rfl⟩
    · -- INS cell
      have hop : (matrixCell cm s t (i + 1) (j + 1)).operation = .INS := by rw [hcell]
      rw [backtraceAux_succ_ins cm s t fuel (i + 1) (j + 1) (by simp) hop]
      obtain ⟨h1, h2, h3, h4, h5⟩ := backtraceAux_spec fuel i (j + 1) (le_of_lt hi2)
        hj (by omega)
      simp only [Nat.add_sub_cancel]
      refine ⟨?_, ?_, ?_, by simp, ?_⟩
      · rw [bt_src_append, h1]
        simp [bt_src_elements]
      · rw [bt_targ_append, h2, List.take_succ, List.getElem?_eq_getElem hi2]
        simp [bt_targ_elements, List.getElem?_eq_getElem hi2]
      · rw [bt_sum_append, h3, hcell]
        simp [bt_sum_this]
      · intro h
        exact ⟨_, List.getLast?_concat _, rfl⟩

/-- The full backtrace reconstructs the source. -/
theorem get_one_backtraceL_src :
    bt_src_elements (get_one_backtraceL cm s t) = s := by
  have h := (backtraceAux_spec cm s t (t.length + s.length) t.length s.length
    le_rfl le_rfl le_rfl).1
  rwa [List.take_length] at h

/-- The full backtrace reconstructs the target. -/
theorem get_one_backtraceL_targ :
    bt_targ_elements (get_one_backtraceL cm s t) = t := by
  have h := (backtraceAux_spec cm s t (t.length + s.length) t.length s.length
    le_rfl le_rfl le_rfl).2.1
  rwa [List.take_length] at h

/-- The incremental costs of the full backtrace sum to the minimum edit
distance. -/
theorem get_one_backtraceL_sum :
    bt_sum_this (get_one_backtraceL cm s t) = min_edit_distanceM cm s t :=
  (backtraceAux_spec cm s t (t.length + s.length) t.length s.length
    le_rfl le_rfl le_rfl).2.2.1

/-- The full backtrace is empty exactly when both sequences are. -/
theorem get_one_backtraceL_eq_nil_iff :
    get_one_backtraceL cm s t = [] ↔ t = [] ∧ s = [] := by
  have h := (backtraceAux_spec cm s t (t.length + s.length) t.length s.length
    le_rfl le_rfl le_rfl).2.2.2.1
  rw [get_one_backtraceL, h, List.length_eq_zero, List.length_eq_zero]

/-- The final step of a non-trivial full backtrace carries the final matrix
cell (whose cumulative cost is the minimum edit distance). -/
theorem get_one_backtraceL_last (h : ¬(t.length = 0 ∧ s.length = 0)) :
    ∃ st : EditStep β α, (get_one_backtraceL cm s t).getLast? = some st ∧
      st.cell = matrixCell cm s t t.length s.length :=
  (backtraceAux_spec cm s t (t.length + s.length) t.length s.length
    le_rfl le_rfl le_rfl).2.2.2.2 h

end BacktraceLemmas

/-! ## Lemmas about the `Levenshtein` class engine -/

section LevLemmas
variable [LinearOrderedSemiring β] (cm : CostFunctions β α) (s t : List α)

theorem ldist_zero_zero : ldist cm s t 0 0 = ⟨0, .START⟩ := rfl

theorem ldist_margin_targ (i : ℕ) :
    ldist cm s t (i + 1) 0 =
      ⟨(ldist cm s t i 0).num + ins_costO cm t[i]?, .INS⟩ := rfl

theorem ldist_margin_src (j : ℕ) :
    ldist cm s t 0 (j + 1) =
      ⟨(ldist cm s t 0 j).num + del_costO cm s[j]?, .DEL⟩ := rfl

theorem ldist_body (i j : ℕ) :
    ldist cm s t (i + 1) (j + 1) =
      ⟨min ((ldist cm s t i (j + 1)).num + ins_costO cm t[i]?)
        (min ((ldist cm s t i j).num + sub_costO cm s[j]? t[i]?)
          ((ldist cm s t (i + 1) j).num + del_costO cm s[j]?)),
       if min ((ldist cm s t i (j + 1)).num + ins_costO cm t[i]?)
            (min ((ldist cm s t i j).num + sub_costO cm s[j]? t[i]?)
              ((ldist cm s t (i + 1) j).num + del_costO cm s[j]?)) =
          (ldist cm s t i j).num + sub_costO cm s[j]? t[i]? then .SUB
       else if min ((ldist cm s t i (j + 1)).num + ins_costO cm t[i]?)
            (min ((ldist cm s t i j).num + sub_costO cm s[j]? t[i]?)
              ((ldist cm s t (i + 1) j).num + del_costO cm s[j]?)) =
          (ldist cm s t (i + 1) j).num + del_costO cm s[j]? then .DEL
       else .INS⟩ := rfl

/-- In range, the `Levenshtein` class engine computes cell for cell the same
cumulative costs and operation tags as the `chart.py` engine: both apply the
same margin formulas, the same three-way minimum, and the same
SUB-then-DEL-then-INS tie-break. -/
theorem ldist_eq_matrixCell : ∀ i j, i ≤ t.length → j ≤ s.length →
    ldist cm s t i j =
      ⟨(matrixCell cm s t i j).cumulative_cost, (matrixCell cm s t i j).operation⟩
  | 0, 0, _, _ => by
    rw [ldist_zero_zero, matrixCell_zero_zero]
  | i + 1, 0, hi, _ => by
    have hi2 : i < t.length := hi
    rw [ldist_margin_targ, matrixCell_margin_targ_spec cm s t i hi2,
      ldist_eq_matrixCell i 0 (le_of_lt hi2) (Nat.zero_le _),
      List.getElem?_eq_getElem hi2]
    rfl
  | 0, j + 1, _, hj => by
    have hj2 : j < s.length := hj
    rw [ldist_margin_src, matrixCell_margin_src_spec cm s t j hj2,
      ldist_eq_matrixCell 0 j (Nat.zero_le _) (le_of_lt hj2),
      List.getElem?_eq_getElem hj2]
    rfl
  | i + 1, j + 1, hi, hj => by
    have hi2 : i < t.length := hi
    have hj2 : j < s.length := hj
    rw [ldist_body,
      ldist_eq_matrixCell i (j + 1) (le_of_lt hi2) hj,
      ldist_eq_matrixCell i j (le_of_lt hi2) (le_of_lt hj2),
      ldist_eq_matrixCell (i + 1) j hi (le_of_lt hj2),
      List.getElem?_eq_getElem hi2, List.getElem?_eq_getElem hj2]
    simp only [ins_costO, del_costO, sub_costO, Option.map_some', Option.getD_some]
    by_cases hs : min ((matrixCell cm s t i (j + 1)).cumulative_cost + cm.insert t[i])
        (min ((matrixCell cm s t i j).cumulative_cost + cm.substitute s[j] t[i])
          ((matrixCell cm s t (i + 1) j).cumulative_cost + cm.delete s[j])) =
      (matrixCell cm s t i j).cumulative_cost + cm.substitute s[j] t[i]
    · rw [matrixCell_body_sub_pref cm s t i j hi2 hj2 hs, if_pos hs, hs]
    · by_cases hd : min ((matrixCell cm s t i (j + 1)).cumulative_cost + cm.insert t[i])
          (min ((matrixCell cm s t i j).cumulative_cost + cm.substitute s[j] t[i])
            ((matrixCell cm s t (i + 1) j).cumulative_cost + cm.delete s[j])) =
        (matrixCell cm s t (i + 1) j).cumulative_cost + cm.delete s[j]
      · rw [matrixCell_body_del_pref cm s t i j hi2 hj2 hs hd, if_neg hs, if_pos hd, hd]
      · rw [matrixCell_body_ins_pref cm s t i j hi2 hj2 hs hd, if_neg hs, if_neg hd]
        congr 1
        rcases min_choice ((matrixCell cm s t i (j + 1)).cumulative_cost + cm.insert t[i])
          (min ((matrixCell cm s t i j).cumulative_cost + cm.substitute s[j] t[i])
            ((matrixCell cm s t (i + 1) j).cumulative_cost + cm.delete s[j])) with h | h
        · exact h
        · rcases min_choice
            ((matrixCell cm s t i j).cumulative_cost + cm.substitute s[j] t[i])
            ((matrixCell cm s t (i + 1) j).cumulative_cost + cm.delete s[j]) with h2 | h2
          · exact absurd (h.trans h2) hs
          · exact absurd (h.trans h2) hd

end LevLemmas

theorem alignment_factsAux_origin [LinearOrderedSemiring β] (cm : CostFunctions β α)
    (s t : List α) : ∀ fuel, alignment_factsAux cm s t fuel 0 0 = []
  | 0 => rfl
  | _ + 1 => by simp [alignment_factsAux]

theorem alignment_factsAux_succ_sub [LinearOrderedSemiring β] (cm : CostFunctions β α)
    (s t : List α) (fuel i j : ℕ) (h : ¬(i = 0 ∧ j = 0))
    (hop : (ldist cm s t i j).operation = .SUB) :
    alignment_factsAux cm s t (fuel + 1) i j =
      alignment_factsAux cm s t fuel (i - 1) (j - 1) ++
        [⟨s[j - 1]?, t[i - 1]?, (ldist cm s t i j).num⟩] := by
  simp only [alignment_factsAux]
  rw [if_neg h, hop]

theorem alignment_factsAux_succ_ins [LinearOrderedSemiring β] (cm : CostFunctions β α)
    (s t : List α) (fuel i j : ℕ) (h : ¬(i = 0 ∧ j = 0))
    (hop : (ldist cm s t i j).operation = .INS) :
    alignment_factsAux cm s t (fuel + 1) i j =
      alignment_factsAux cm s t fuel (i - 1) j ++
        [⟨none, t[i - 1]?, (ldist cm s t i j).num⟩] := by
  simp only [alignment_factsAux]
  rw [if_neg h, hop]

theorem alignment_factsAux_succ_del [LinearOrderedSemiring β] (cm : CostFunctions β α)
    (s t : List α) (fuel i j : ℕ) (h : ¬(i = 0 ∧ j = 0))
    (hop : (ldist cm s t i j).operation = .DEL) :
    alignment_factsAux cm s t (fuel + 1) i j =
      alignment_factsAux cm s t fuel i (j - 1) ++
        [⟨s[j - 1]?, none, (ldist cm s t i j).num⟩] := by
  simp only [alignment_factsAux]
  rw [if_neg h, hop]

/-- The master invariant of the `alignment_facts` walk: the units reconstruct
the two consumed prefixes, the walk is empty exactly at the origin, and the
final unit carries the cumulative cost of the starting cell. -/
theorem alignment_factsAux_spec [LinearOrderedSemiring β] (cm : CostFunctions β α)
    (s t : List α) : ∀ fuel i j, i ≤ t.length → j ≤ s.length → i + j ≤ fuel →
    af_unit1_elements (alignment_factsAux cm s t fuel i j) = s.take j ∧
    af_unit2_elements (alignment_factsAux cm s t fuel i j) = t.take i ∧
    (alignment_factsAux cm s t fuel i j = [] ↔ i = 0 ∧ j = 0) ∧
    (¬(i = 0 ∧ j = 0) → ∃ u : AlignmentUnit β α,
      (alignment_factsAux cm s t fuel i j).getLast? = some u ∧
      u.cost = (ldist cm s t i j).num)
  | fuel, 0, 0, _, _, _ => by
    rw [alignment_factsAux_origin]
    refine ⟨by simp [af_unit1_elements], by simp [af_unit2_elements], by simp, ?_⟩
    intro h
    exact absurd ⟨rfl, rfl⟩ h
  | 0, i + 1, j, _, _, hfuel => by omega
  | 0, 0, j + 1, _, _, hfuel => by omega
  | fuel + 1, i + 1, 0, hi, _, hfuel => by
    have hi2 : i < t.length := hi
    have hop : (ldist cm s t (i + 1) 0).operation = .INS := by
      rw [ldist_eq_matrixCell cm s t (i + 1) 0 hi (Nat.zero_le _),
        matrixCell_margin_targ_spec cm s t i hi2]
    rw [alignment_factsAux_succ_ins cm s t fuel (i + 1) 0 (by simp) hop]
    obtain ⟨h1, h2, h3, h4⟩ := alignment_factsAux_spec cm s t fuel i 0 (le_of_lt hi2)
      (Nat.zero_le _) (by omega)
    simp only [Nat.add_sub_cancel]
    refine ⟨?_, ?_, by simp, ?_⟩
    · rw [af_unit1_elements, List.filterMap_append]
      simp only [af_unit1_elements] at h1
      rw [h1]
      simp
    · rw [af_unit2_elements, List.filterMap_append]
      simp only [af_unit2_elements] at h2
      rw [h2, List.take_succ, List.getElem?_eq_getElem hi2]
      simp [List.getElem?_eq_getElem hi2]
    · intro h
      exact ⟨_, List.getLast?_concat _, rfl⟩
  | fuel + 1, 0, j + 1, _, hj, hfuel => by
    have hj2 : j < s.length := hj
    have hop : (ldist cm s t 0 (j + 1)).operation = .DEL := by
      rw [ldist_eq_matrixCell cm s t 0 (j + 1) (Nat.zero_le _) hj,
        matrixCell_margin_src_spec cm s t j hj2]
    rw [alignment_factsAux_succ_del cm s t fuel 0 (j + 1) (by simp) hop]
    obtain ⟨h1, h2, h3, h4⟩ := alignment_factsAux_spec cm s t fuel 0 j (Nat.zero_le _)
      (le_of_lt hj2) (by omega)
    simp only [Nat.add_sub_cancel]
    refine ⟨?_, ?_, by simp, ?_⟩
    · rw [af_unit1_elements, List.filterMap_append]
      simp only [af_unit1_elements] at h1
      rw [h1, List.take_succ, List.getElem?_eq_getElem hj2]
      simp [List.getElem?_eq_getElem hj2]
    · rw [af_unit2_elements, List.filterMap_append]
      simp only [af_unit2_elements] at h2
      rw [h2]
      simp
    · intro h
      exact ⟨_, List.getLast?_concat _, rfl⟩
  | fuel + 1, i + 1, j + 1, hi, hj, hfuel => by
    have hi2 : i < t.length := hi
    have hj2 : j < s.length := hj
    have hopeq : (ldist cm s t (i + 1) (j + 1)).operation =
        (matrixCell cm s t (i + 1) (j + 1)).operation := by
      rw [ldist_eq_matrixCell cm s t (i + 1) (j + 1) hi hj]
    rcases matrixCell_body_cases cm s t i j hi2 hj2 with hcell | hcell | hcell
    · -- SUB cell
      have hop : (ldist cm s t (i + 1) (j + 1)).operation = .SUB := by
        rw [hopeq, hcell]
      rw [alignment_factsAux_succ_sub cm s t fuel (i + 1) (j + 1) (by simp) hop]
      obtain ⟨h1, h2, h3, h4⟩ := alignment_factsAux_spec cm s t fuel i j (le_of_lt hi2)
        (le_of_lt hj2) (by omega)
      simp only [Nat.add_sub_cancel]
      refine ⟨?_, ?_, by simp, ?_⟩
      · rw [af_unit1_elements, List.filterMap_append]
        simp only [af_unit1_elements] at h1
        rw [h1, List.take_succ, List.getElem?_eq_getElem hj2]
        simp [List.getElem?_eq_getElem hj2]
      · rw [af_unit2_elements, List.filterMap_append]
        simp only [af_unit2_elements] at h2
        rw [h2, List.take_succ, List.getElem?_eq_getElem hi2]
        simp [List.getElem?_eq_getElem hi2]
      · intro h
        exact ⟨_, List.getLast?_concat _, rfl⟩
    · -- DEL cell
      have hop : (ldist cm s t (i + 1) (j + 1)).operation = .DEL := by
        rw [hopeq, hcell]
      rw [alignment_factsAux_succ_del cm s t fuel (i + 1) (j + 1) (by simp) hop]
      obtain ⟨h1, h2, h3, h4⟩ := alignment_factsAux_spec cm s t fuel (i + 1) j hi
        (le_of_lt hj2) (by omega)
      simp only [Nat.add_sub_cancel]
      refine ⟨?_, ?_, by simp, ?_⟩
      · rw [af_unit1_elements, List.filterMap_append]
        simp only [af_unit1_elements] at h1
        rw [h1, List.take_succ, List.getElem?_eq_getElem hj2]
        simp [List.getElem?_eq_getElem hj2]
      · rw [af_unit2_elements, List.filterMap_append]
        simp only [af_unit2_elements] at h2
        rw [h2]
        simp
      · intro h
        exact ⟨_, List.getLast?_concat _, rfl⟩
    · -- INS cell
      have hop : (ldist cm s t (i + 1) (j + 1)).operation = .INS := by
        rw [hopeq, hcell]
      rw [alignment_factsAux_succ_ins cm s t fuel (i + 1) (j + 1) (by simp) hop]
      obtain ⟨h1, h2, h3, h4⟩ := alignment_factsAux_spec cm s t fuel i (j + 1)
        (le_of_lt hi2) hj (by omega)
      simp only [Nat.add_sub_cancel]
      refine ⟨?_, ?_, by simp, ?_⟩
      · rw [af_unit1_elements, List.filterMap_append]
        simp only [af_unit1_elements] at h1
        rw [h1]
        simp
      · rw [af_unit2_elements, List.filterMap_append]
        simp only [af_unit2_elements] at h2
        rw [h2, List.take_succ, List.getElem?_eq_getElem hi2]
        simp [List.getElem?_eq_getElem hi2]
      · intro h
        exact ⟨_, List.getLast?_concat _, rfl⟩

/-- `alignment_facts` reconstructs `sequence1` from its non-absent `unit1`
entries. -/
theorem alignment_factsL_unit1 [LinearOrderedSemiring β] (cm : CostFunctions β α)
    (s t : List α) : af_unit1_elements (alignment_factsL cm s t) = s := by
  have h := (alignment_factsAux_spec cm s t (t.length + s.length) t.length s.length
    le_rfl le_rfl le_rfl).1
  rwa [List.take_length] at h

/-- `alignment_facts` reconstructs `sequence2` from its non-absent `unit2`
entries. -/
theorem alignment_factsL_unit2 [LinearOrderedSemiring β] (cm : CostFunctions β α)
    (s t : List α) : af_unit2_elements (alignment_factsL cm s t) = t := by
  have h := (alignment_factsAux_spec cm s t (t.length + s.length) t.length s.length
    le_rfl le_rfl le_rfl).2.1
  rwa [List.take_length] at h

/-- The final unit of a non-trivial `alignment_facts` list carries the
minimum edit distance. -/
theorem alignment_factsL_last [LinearOrderedSemiring β] (cm : CostFunctions β α)
    (s t : List α) (h : ¬(t.length = 0 ∧ s.length = 0)) :
    ∃ u : AlignmentUnit β α, (alignment_factsL cm s t).getLast? = some u ∧
      u.cost = min_edit_distanceLev cm s t :=
  (alignment_factsAux_spec cm s t (t.length + s.length) t.length s.length
    le_rfl le_rfl le_rfl).2.2.2 h

/-! ## Self-identity lemmas (default cost model, equal sequences) -/

section DiagLemmas
variable [LinearOrderedSemiring β] (cm : CostFunctions β α)

/-- With non-negative cost functions, every in-range cumulative cost is
non-negative. -/
theorem matrixCell_cumulative_nonneg (hins : ∀ a, 0 ≤ cm.insert a)
    (hdel : ∀ a, 0 ≤ cm.delete a) (hsub : ∀ a b, 0 ≤ cm.substitute a b)
    (s t : List α) : ∀ i j, i ≤ t.length → j ≤ s.length →
    0 ≤ (matrixCell cm s t i j).cumulative_cost
  | 0, 0, _, _ => by
    rw [matrixCell_zero_zero]
  | i + 1, 0, hi, _ => by
    have hi2 : i < t.length := hi
    rw [matrixCell_margin_targ_spec cm s t i hi2]
    exact add_nonneg (matrixCell_cumulative_nonneg hins hdel hsub s t i 0
      (le_of_lt hi2) (Nat.zero_le _)) (hins _)
  | 0, j + 1, _, hj => by
    have hj2 : j < s.length := hj
    rw [matrixCell_margin_src_spec cm s t j hj2]
    exact add_nonneg (matrixCell_cumulative_nonneg hins hdel hsub s t 0 j
      (Nat.zero_le _) (le_of_lt hj2)) (hdel _)
  | i + 1, j + 1, hi, hj => by
    have hi2 : i < t.length := hi
    have hj2 : j < s.length := hj
    rw [matrixCell_body_cumulative cm s t i j hi2 hj2]
    exact le_min3
      (add_nonneg (matrixCell_cumulative_nonneg hins hdel hsub s t i (j + 1)
        (le_of_lt hi2) hj) (hins _))
      (add_nonneg (matrixCell_cumulative_nonneg hins hdel hsub s t i j
        (le_of_lt hi2) (le_of_lt hj2)) (hsub _ _))
      (add_nonneg (matrixCell_cumulative_nonneg hins hdel hsub s t (i + 1) j
        hi (le_of_lt hj2)) (hdel _))
termination_by i j => (i, j)

/-- For a cost model with non-negative costs and zero-cost identity
substitutions, the diagonal of the matrix for a sequence against itself
consists of zero-cost cells, chosen as SUB by the tie-break everywhere past
the origin. -/
theorem matrixCell_diag (hins : ∀ a, 0 ≤ cm.insert a)
    (hdel : ∀ a, 0 ≤ cm.delete a) (hsub : ∀ a b, 0 ≤ cm.substitute a b)
    (hsubself : ∀ a, cm.substitute a a = 0) (s : List α) :
    ∀ k, k ≤ s.length →
    (matrixCell cm s s k k).cumulative_cost = 0 ∧
    (0 < k → matrixCell cm s s k k = ⟨0, 0, .SUB⟩)
  | 0, _ => ⟨by rw [matrixCell_zero_zero], fun h => absurd h (lt_irrefl 0)⟩
  | k + 1, hk => by
    have hk2 : k < s.length := hk
    obtain ⟨ihc, -⟩ := matrixCell_diag hins hdel hsub hsubself s k (le_of_lt hk2)
    have hsubc : (matrixCell cm s s k k).cumulative_cost + cm.substitute s[k] s[k] = 0 := by
      rw [ihc, hsubself, add_zero]
    have hmin : min3
        ((matrixCell cm s s k (k + 1)).cumulative_cost + cm.insert s[k])
        ((matrixCell cm s s k k).cumulative_cost + cm.substitute s[k] s[k])
        ((matrixCell cm s s (k + 1) k).cumulative_cost + cm.delete s[k]) =
        (matrixCell cm s s k k).cumulative_cost + cm.substitute s[k] s[k] := by
      refine le_antisymm (min3_le_mid _ _ _) (le_min3 ?_ le_rfl ?_)
      · rw [hsubc]
        exact add_nonneg (matrixCell_cumulative_nonneg cm hins hdel hsub s s k (k + 1)
          (le_of_lt hk2) hk) (hins _)
      · rw [hsubc]
        exact add_nonneg (matrixCell_cumulative_nonneg cm hins hdel hsub s s (k + 1) k
          hk (le_of_lt hk2)) (hdel _)
    have hcell := matrixCell_body_sub_pref cm s s k k hk2 hk2 hmin
    rw [hcell]
    exact ⟨hsubc, fun _ => by rw [hsubself, ihc, add_zero]⟩

/-- On the diagonal walk for a sequence against itself, every backtrace step
is a SUB step pairing an element with itself. -/
theorem backtraceAux_diag (hins : ∀ a, 0 ≤ cm.insert a)
    (hdel : ∀ a, 0 ≤ cm.delete a) (hsub : ∀ a b, 0 ≤ cm.substitute a b)
    (hsubself : ∀ a, cm.substitute a a = 0) (s : List α) :
    ∀ fuel k, k ≤ s.length → k + k ≤ fuel →
    ∀ st ∈ backtraceAux cm s s fuel k k,
      st.cell.operation = .SUB ∧ ∃ x : α, st.source = some x ∧ st.target = some x
  | fuel, 0, _, _ => by
    rw [backtraceAux_origin]
    intro st hst
    exact absurd hst (List.not_mem_nil st)
  | 0, k + 1, _, hfuel => by omega
  | fuel + 1, k + 1, hk, hfuel => by
    have hk2 : k < s.length := hk
    obtain ⟨-, hcellf⟩ := matrixCell_diag cm hins hdel hsub hsubself s (k + 1) hk
    have hcell := hcellf (Nat.succ_pos k)
    have hop : (matrixCell cm s s (k + 1) (k + 1)).operation = .SUB := by rw [hcell]
    rw [backtraceAux_succ_sub cm s s fuel (k + 1) (k + 1) (by simp) hop]
    intro st hst
    rcases List.mem_append.mp hst with hst | hst
    · exact backtraceAux_diag hins hdel hsub hsubself s fuel k (le_of_lt hk2)
        (by omega) st hst
    · rw [List.mem_singleton] at hst
      subst hst
      simp only [Nat.add_sub_cancel]
      refine ⟨by rw [hcell], ⟨s[k], ?_, ?_⟩⟩
      · show s[k]? = some s[k]
        exact List.getElem?_eq_getElem hk2
      · show s[k]? = some s[k]
        exact List.getElem?_eq_getElem hk2

end DiagLemmas

/-! ## The single-path shapes for one-sided inputs -/

section PathLemmas
variable [LinearOrderedSemiring β] (cm : CostFunctions β α)

/-- With an empty source, the enumerator returns exactly the one all-INSERT
parse covering the target in order. -/
theorem parseL_nil_source_ins (jo : Bool) : ∀ (t : α) (ts : List α),
    parseL cm jo [] (t :: ts) = [insPath cm (t :: ts)]
  | t, [] => by
    cases jo <;>
      simp [parseL_nil_cons, parseL_nil_nil, try_op_result, remove_suboptimal_parses,
        list_min, parse_cost, insPath]
  | t, t2 :: ts => by
    rw [parseL_nil_cons, parseL_nil_source_ins jo t2 ts]
    cases jo <;>
      simp [try_op_result, remove_suboptimal_parses, list_min, parse_cost, insPath]

/-- With an empty target, the enumerator returns exactly the one all-DELETE
parse covering the source in order. -/
theorem parseL_nil_target_del (jo : Bool) : ∀ (s : α) (ss : List α),
    parseL cm jo (s :: ss) [] = [delPath cm (s :: ss)]
  | s, [] => by
    cases jo <;>
      simp [parseL_cons_nil, parseL_nil_nil, try_op_result, remove_suboptimal_parses,
        list_min, parse_cost, delPath]
  | s, s2 :: ss => by
    rw [parseL_cons_nil, parseL_nil_target_del jo s2 ss]
    cases jo <;>
      simp [try_op_result, remove_suboptimal_parses, list_min, parse_cost, delPath]

end PathLemmas

/-! ## `just_one` is "first minimal parse": `take 1` of the full enumeration -/

section JustOneLemmas
variable [LinearOrderedSemiring β]

theorem isEmpty_not_true {γ : Type} {l : List γ} (h : l ≠ []) :
    ¬l.isEmpty = true := by
  rw [isEmpty_false_of_ne_nil h]
  exact Bool.false_ne_true

theorem remove_suboptimal_true (parses : Parses β α) :
    remove_suboptimal_parses parses true =
      (parses.filter fun p =>
        decide (parse_cost p = list_min (parses.map parse_cost))).take 1 := rfl

theorem remove_suboptimal_false (parses : Parses β α) :
    remove_suboptimal_parses parses false =
      parses.filter fun p =>
        decide (parse_cost p = list_min (parses.map parse_cost)) := rfl

theorem try_op_result_take_one (cell : XCell β α) (l : Parses β α) :
    try_op_result cell (l.take 1) = (try_op_result cell l).take 1 := by
  cases l <;> simp [try_op_result]

theorem filter_const {l : Parses β α} {v : β} (h : ∀ p ∈ l, parse_cost p = v) (m : β) :
    (l.filter fun p => decide (parse_cost p = m)) = if v = m then l else [] := by
  induction l with
  | nil => simp
  | cons q l ih =>
    rw [List.filter_cons, ih fun p hp => h p (List.mem_cons_of_mem q hp),
      h q (List.mem_cons_self q l)]
    by_cases hvm : v = m
    · simp [hvm]
    · simp [hvm]

theorem take_one_append_left {γ : Type} {A : List γ} (B : List γ) (h : A ≠ []) :
    (A ++ B).take 1 = A.take 1 := by
  cases A with
  | nil => exact absurd rfl h
  | cons a l => simp

theorem append_ne_nil_of_left {γ : Type} {A : List γ} (B : List γ) (h : A ≠ []) :
    A ++ B ≠ [] :=
  fun hh => h (List.append_eq_nil.mp hh).1

/-- The minimum cost over one constant-cost branch. -/
theorem list_min_const {B : Parses β α} {v : β} (h : B ≠ [])
    (hc : ∀ p ∈ B, parse_cost p = v) : list_min (B.map parse_cost) = v := by
  have hmapne : B.map parse_cost ≠ [] := fun hh => h (List.map_eq_nil_iff.mp hh)
  obtain ⟨q, hq, hq2⟩ := List.mem_map.mp (list_min_mem hmapne)
  rw [← hq2, hc q hq]

/-- The minimum cost over three constant-cost branches. -/
theorem list_min_blocks3 (B1 B2 B3 : Parses β α) (v1 v2 v3 : β)
    (h1 : B1 ≠ []) (h2 : B2 ≠ []) (h3 : B3 ≠ [])
    (hc1 : ∀ p ∈ B1, parse_cost p = v1) (hc2 : ∀ p ∈ B2, parse_cost p = v2)
    (hc3 : ∀ p ∈ B3, parse_cost p = v3) :
    list_min ((B1 ++ B2 ++ B3).map parse_cost) = min3 v1 v2 v3 := by
  apply le_antisymm
  · refine le_min3 ?_ ?_ ?_
    · obtain ⟨p, hp⟩ := List.exists_mem_of_ne_nil _ h1
      exact le_trans (list_min_le (List.mem_map_of_mem parse_cost
        (List.mem_append_left _ (List.mem_append_left _ hp)))) (le_of_eq (hc1 p hp))
    · obtain ⟨p, hp⟩ := List.exists_mem_of_ne_nil _ h2
      exact le_trans (list_min_le (List.mem_map_of_mem parse_cost
        (List.mem_append_left _ (List.mem_append_right _ hp)))) (le_of_eq (hc2 p hp))
    · obtain ⟨p, hp⟩ := List.exists_mem_of_ne_nil _ h3
      exact le_trans (list_min_le (List.mem_map_of_mem parse_cost
        (List.mem_append_right _ hp))) (le_of_eq (hc3 p hp))
  · have hmapne : (B1 ++ B2 ++ B3).map parse_cost ≠ [] :=
      fun hh => append_ne_nil_of_left _ (append_ne_nil_of_left _ h1)
        (List.map_eq_nil_iff.mp hh)
    obtain ⟨q, hq, hq2⟩ := List.mem_map.mp (list_min_mem hmapne)
    rw [← hq2]
    rcases List.mem_append.mp hq with hq12 | hq3
    · rcases List.mem_append.mp hq12 with hq1 | hq2b
      · rw [hc1 q hq1]
        exact min3_le_left _ _ _
      · rw [hc2 q hq2b]
        exact min3_le_mid _ _ _
    · rw [hc3 q hq3]
      exact min3_le_right _ _ _

/-- For a single constant-cost branch, filtering the `take 1` with
`just_one` gives the `take 1` of the all-parses filtering. -/
theorem remove_suboptimal_block1 (B : Parses β α) (v : β) (h : B ≠ [])
    (hc : ∀ p ∈ B, parse_cost p = v) :
    remove_suboptimal_parses (B.take 1) true =
      (remove_suboptimal_parses B false).take 1 := by
  have hctake : ∀ p ∈ B.take 1, parse_cost p = v :=
    fun p hp => hc p (List.take_subset _ _ hp)
  have hminB : list_min (B.map parse_cost) = v := list_min_const h hc
  have hminB1 : list_min ((B.take 1).map parse_cost) = v :=
    list_min_const (take_one_ne_nil h) hctake
  rw [remove_suboptimal_true, remove_suboptimal_false]
  simp only [hminB, hminB1]
  rw [filter_const hctake v, if_pos rfl, filter_const hc v, if_pos rfl, List.take_take]
  simp

/-- For three constant-cost branches, the `just_one` selection over the
blockwise `take 1` equals the first minimal parse of the full enumeration,
in the same SUB, DEL, INS block order. -/
theorem remove_suboptimal_blocks3 (B1 B2 B3 : Parses β α) (v1 v2 v3 : β)
    (h1 : B1 ≠ []) (h2 : B2 ≠ []) (h3 : B3 ≠ [])
    (hc1 : ∀ p ∈ B1, parse_cost p = v1) (hc2 : ∀ p ∈ B2, parse_cost p = v2)
    (hc3 : ∀ p ∈ B3, parse_cost p = v3) :
    remove_suboptimal_parses (B1.take 1 ++ B2.take 1 ++ B3.take 1) true =
      (remove_suboptimal_parses (B1 ++ B2 ++ B3) false).take 1 := by
  have hm : list_min ((B1 ++ B2 ++ B3).map parse_cost) = min3 v1 v2 v3 :=
    list_min_blocks3 B1 B2 B3 v1 v2 v3 h1 h2 h3 hc1 hc2 hc3
  have hm2 : list_min ((B1.take 1 ++ B2.take 1 ++ B3.take 1).map parse_cost) =
      min3 v1 v2 v3 :=
    list_min_blocks3 _ _ _ v1 v2 v3 (take_one_ne_nil h1) (take_one_ne_nil h2)
      (take_one_ne_nil h3) (fun p hp => hc1 p (List.take_subset _ _ hp))
      (fun p hp => hc2 p (List.take_subset _ _ hp))
      (fun p hp => hc3 p (List.take_subset _ _ hp))
  rw [remove_suboptimal_true, remove_suboptimal_false]
  simp only [hm, hm2]
  rw [List.filter_append, List.filter_append, List.filter_append, List.filter_append,
    filter_const (fun p hp => hc1 p (List.take_subset _ _ hp)) (min3 v1 v2 v3),
    filter_const (fun p hp => hc2 p (List.take_subset _ _ hp)) (min3 v1 v2 v3),
    filter_const (fun p hp => hc3 p (List.take_subset _ _ hp)) (min3 v1 v2 v3),
    filter_const hc1 (min3 v1 v2 v3), filter_const hc2 (min3 v1 v2 v3),
    filter_const hc3 (min3 v1 v2 v3)]
  by_cases hv1 : v1 = min3 v1 v2 v3
  · simp only [if_pos hv1]
    rw [take_one_append_left _ (append_ne_nil_of_left _ (take_one_ne_nil h1)),
      take_one_append_left _ (take_one_ne_nil h1),
      take_one_append_left _ (append_ne_nil_of_left _ h1),
      take_one_append_left _ h1, List.take_take]
    simp
  · simp only [if_neg hv1, List.nil_append]
    by_cases hv2 : v2 = min3 v1 v2 v3
    · simp only [if_pos hv2]
      rw [take_one_append_left _ (take_one_ne_nil h2), take_one_append_left _ h2,
        List.take_take]
      simp
    · simp only [if_neg hv2, List.nil_append]
      by_cases hv3 : v3 = min3 v1 v2 v3
      · simp only [if_pos hv3]
        rw [List.take_take]
        simp
      · simp only [if_neg hv3]

/-- `just_one = true` returns exactly the first parse of the full
enumeration, at every start coordinate. -/
theorem parseL_just_one (cm : CostFunctions β α) : ∀ ss ts : List α,
    parseL cm true ss ts = (parseL cm false ss ts).take 1
  | [], [] => rfl
  | [], t :: ts => by
    obtain ⟨ihs, ihm⟩ := parseL_spec cm false [] ts
    obtain ⟨hneF, hmemF⟩ := try_op_facts cm (cm.insert t) none (some t) [] ts
      (parseL cm false [] ts) ihs ihm
    rw [parseL_nil_cons cm true, parseL_nil_cons cm false,
      parseL_just_one cm [] ts, try_op_result_take_one,
      if_neg (isEmpty_not_true (take_one_ne_nil hneF)),
      if_neg (isEmpty_not_true hneF)]
    exact remove_suboptimal_block1 _ _ hneF fun p hp => (hmemF p hp).1
  | s :: ss, [] => by
    obtain ⟨ihs, ihm⟩ := parseL_spec cm false ss []
    obtain ⟨hneF, hmemF⟩ := try_op_facts cm (cm.delete s) (some s) none ss []
      (parseL cm false ss []) ihs ihm
    rw [parseL_cons_nil cm true, parseL_cons_nil cm false,
      parseL_just_one cm ss [], try_op_result_take_one,
      if_neg (isEmpty_not_true (take_one_ne_nil hneF)),
      if_neg (isEmpty_not_true hneF)]
    exact remove_suboptimal_block1 _ _ hneF fun p hp => (hmemF p hp).1
  | s :: ss, t :: ts => by
    obtain ⟨ihs1, ihm1⟩ := parseL_spec cm false ss ts
    obtain ⟨ihs2, ihm2⟩ := parseL_spec cm false ss (t :: ts)
    obtain ⟨ihs3, ihm3⟩ := parseL_spec cm false (s :: ss) ts
    obtain ⟨hne1, hmem1⟩ := try_op_facts cm (cm.substitute s t) (some s) (some t) ss ts
      (parseL cm false ss ts) ihs1 ihm1
    obtain ⟨hne2, hmem2⟩ := try_op_facts cm (cm.delete s) (some s) none ss (t :: ts)
      (parseL cm false ss (t :: ts)) ihs2 ihm2
    obtain ⟨hne3, hmem3⟩ := try_op_facts cm (cm.insert t) none (some t) (s :: ss) ts
      (parseL cm false (s :: ss) ts) ihs3 ihm3
    have hcatne : try_op_result ⟨some s, some t, cm.substitute s t, cm.substitute s t⟩
          (parseL cm false ss ts)
        ++ try_op_result ⟨some s, none, cm.delete s, cm.delete s⟩
          (parseL cm false ss (t :: ts))
        ++ try_op_result ⟨none, some t, cm.insert t, cm.insert t⟩
          (parseL cm false (s :: ss) ts) ≠ [] :=
      append_ne_nil_of_left _ (append_ne_nil_of_left _ hne1)
    have hcatne2 : (try_op_result ⟨some s, some t, cm.substitute s t, cm.substitute s t⟩
          (parseL cm false ss ts)).take 1
        ++ (try_op_result ⟨some s, none, cm.delete s, cm.delete s⟩
          (parseL cm false ss (t :: ts))).take 1
        ++ (try_op_result ⟨none, some t, cm.insert t, cm.insert t⟩
          (parseL cm false (s :: ss) ts)).take 1 ≠ [] :=
      append_ne_nil_of_left _ (append_ne_nil_of_left _ (take_one_ne_nil hne1))
    rw [parseL_cons_cons cm true, parseL_cons_cons cm false,
      parseL_just_one cm ss ts, parseL_just_one cm ss (t :: ts),
      parseL_just_one cm (s :: ss) ts,
      try_op_result_take_one, try_op_result_take_one, try_op_result_take_one,
      if_neg (isEmpty_not_true hcatne2), if_neg (isEmpty_not_true hcatne)]
    exact remove_suboptimal_blocks3 _ _ _ _ _ _ hne1 hne2 hne3
      (fun p hp => (hmem1 p hp).1) (fun p hp => (hmem2 p hp).1)
      (fun p hp => (hmem3 p hp).1)
termination_by ss ts => (ss.length, ts.length)

end JustOneLemmas

/-! ## Support lemmas for the claim theorems -/

theorem length_take_one_of_ne_nil {γ : Type} {l : List γ} (h : l ≠ []) :
    (l.take 1).length = 1 := by
  cases l with
  | nil => exact absurd rfl h
  | cons a l => simp

/-- Destructuring a successful `chart.levenshtein` call. -/
theorem levenshteinL_some {w : α → ℕ} {cm : CostFunctions β α} {s t : List α}
    {a : PairAnalysis β α} (h : levenshteinL w cm s t = some a) :
    a.source = s ∧ a.target = t ∧ a.cost_functions = cm ∧
    greatest_width w s = some a.source_widest ∧
    greatest_width w t = some a.target_widest := by
  unfold levenshteinL at h
  cases hgs : greatest_width w s with
  | none =>
    rw [hgs] at h
    exact absurd h (by simp)
  | some sw =>
    cases hgt : greatest_width w t with
    | none =>
      rw [hgs, hgt] at h
      exact absurd h (by simp)
    | some tw =>
      rw [hgs, hgt] at h
      have h2 := Option.some.inj h
      subst h2
      exact ⟨rfl, rfl, rfl, rfl, rfl⟩

/-- A string of non-Mark characters prints at its raw character count. -/
theorem print_len_of_no_marks (is_mark : Char → Bool) (text : String)
    (h : ∀ ch ∈ text.data, is_mark ch = false) :
    print_len is_mark text = text.length := by
  rw [print_len]
  have : text.data.filter (fun ch => ! is_mark ch) = text.data :=
    List.filter_eq_self.mpr fun ch hch => by rw [h ch hch]; rfl
  rw [this]
  rfl

theorem foldl_max_congr {γ : Type} (f g : γ → ℕ) : ∀ (l : List γ) (a : ℕ),
    (∀ x ∈ l, f x = g x) → (l.map f).foldl max a = (l.map g).foldl max a
  | [], _, _ => rfl
  | x :: l, a, h => by
    rw [List.map_cons, List.map_cons, List.foldl_cons, List.foldl_cons,
      h x (List.mem_cons_self x l),
      foldl_max_congr f g l (max a (g x)) fun y hy => h y (List.mem_cons_of_mem x hy)]

/-! ## The claims -/

/-- C1 (counterexample): on an empty source the enumerator still returns a
path (one INSERT of cost 1), but `chart.levenshtein` never produces an
analysis — its column-width precomputation `greatest_width` takes `max` of
an empty sequence and raises `ValueError` (embedded as `none`), so "the
minimum edit distance computed by the tabular engine
(`chart.min_edit_distance` of `chart.levenshtein`)" does not exist there,
and the claimed equality fails at this input. -/
theorem claim1_counterexample :
    relateL (levCosts ℕ Char) false [] ['a'] = [[⟨none, some 'a', 1, 1⟩]] ∧
    levenshteinL (fun _ => 1) (levCosts ℕ Char) ([] : List Char) ['a'] = none := by
  constructor
  · decide
  · rfl

/-- C1 (amended): for every source, target and cost model, every path the
enumerator returns from the origin has total cost equal to the final cell of
the matrix filled by `chart.compute_min_edit_distance`; and whenever
`chart.levenshtein` succeeds (both sequences non-empty, so the width
precomputation does not raise), that value is exactly
`chart.min_edit_distance` of the returned analysis. -/
theorem claim1_engine_agreement [LinearOrderedSemiring β] (cm : CostFunctions β α)
    (w : α → ℕ) (jo : Bool) (s t : List α) :
    (∀ p ∈ relateL cm jo s t, parse_cost p = min_edit_distanceM cm s t) ∧
    (∀ a : PairAnalysis β α, levenshteinL w cm s t = some a →
      ∀ p ∈ relateL cm jo s t, parse_cost p = min_edit_distanceA a) := by
  constructor
  · intro p hp
    rw [relateL_cost cm jo s t p hp, min_edit_distanceM_eq_ed]
  · intro a ha p hp
    obtain ⟨hs, ht, hcm, -, -⟩ := levenshteinL_some ha
    rw [relateL_cost cm jo s t p hp, min_edit_distanceA, hs, ht, hcm,
      ← min_edit_distanceM, min_edit_distanceM_eq_ed]

/-- C1 (witness). -/
theorem claim1_witness :
    parse_cost [(⟨some 'a', some 'a', 0, 0⟩ : XCell ℕ Char)] =
      min_edit_distanceM (levCosts ℕ Char) ['a'] ['a'] ∧
    parse_cost [(⟨some 'a', some 'a', 0, 0⟩ : XCell ℕ Char)] =
      min_edit_distanceA (⟨['a'], 1, ['a'], 1, levCosts ℕ Char⟩ : PairAnalysis ℕ Char) :=
  ⟨(claim1_engine_agreement (levCosts ℕ Char) (fun _ => 1) false ['a'] ['a']).1
      [⟨some 'a', some 'a', 0, 0⟩] (by decide),
    (claim1_engine_agreement (levCosts ℕ Char) (fun _ => 1) false ['a'] ['a']).2
      ⟨['a'], 1, ['a'], 1, levCosts ℕ Char⟩ rfl
      [⟨some 'a', some 'a', 0, 0⟩] (by decide)⟩

/-- C2: for every in-range body coordinate, both tabular engines
(`chart.compute_min_edit_distance` and
`Levenshtein._compute_min_edit_distance`) give the cell the cumulative cost
`min(up + insertCost(target[i-1]), diagonal + substituteCost(source[j-1],
target[i-1]), left + deleteCost(source[j-1]))`, and on ties the stored
operation prefers SUB, then DEL, then INS; the class engine's cell carries
the same cumulative cost and operation tag as the chart engine's. -/
theorem claim2_body_recurrence [LinearOrderedSemiring β] (cm : CostFunctions β α)
    (s t : List α) (i j : ℕ) (hi : i < t.length) (hj : j < s.length) :
    (matrixCell cm s t (i + 1) (j + 1)).cumulative_cost =
      min3 ((matrixCell cm s t i (j + 1)).cumulative_cost + cm.insert t[i])
        ((matrixCell cm s t i j).cumulative_cost + cm.substitute s[j] t[i])
        ((matrixCell cm s t (i + 1) j).cumulative_cost + cm.delete s[j]) ∧
    (min3 ((matrixCell cm s t i (j + 1)).cumulative_cost + cm.insert t[i])
        ((matrixCell cm s t i j).cumulative_cost + cm.substitute s[j] t[i])
        ((matrixCell cm s t (i + 1) j).cumulative_cost + cm.delete s[j]) =
      (matrixCell cm s t i j).cumulative_cost + cm.substitute s[j] t[i] →
      matrixCell cm s t (i + 1) (j + 1) =
        ⟨cm.substitute s[j] t[i],
          (matrixCell cm s t i j).cumulative_cost + cm.substitute s[j] t[i], .SUB⟩) ∧
    (¬ min3 ((matrixCell cm s t i (j + 1)).cumulative_cost + cm.insert t[i])
        ((matrixCell cm s t i j).cumulative_cost + cm.substitute s[j] t[i])
        ((matrixCell cm s t (i + 1) j).cumulative_cost + cm.delete s[j]) =
      (matrixCell cm s t i j).cumulative_cost + cm.substitute s[j] t[i] →
      min3 ((matrixCell cm s t i (j + 1)).cumulative_cost + cm.insert t[i])
        ((matrixCell cm s t i j).cumulative_cost + cm.substitute s[j] t[i])
        ((matrixCell cm s t (i + 1) j).cumulative_cost + cm.delete s[j]) =
      (matrixCell cm s t (i + 1) j).cumulative_cost + cm.delete s[j] →
      matrixCell cm s t (i + 1) (j + 1) =
        ⟨cm.delete s[j],
          (matrixCell cm s t (i + 1) j).cumulative_cost + cm.delete s[j], .DEL⟩) ∧
    (¬ min3 ((matrixCell cm s t i (j + 1)).cumulative_cost + cm.insert t[i])
        ((matrixCell cm s t i j).cumulative_cost + cm.substitute s[j] t[i])
        ((matrixCell cm s t (i + 1) j).cumulative_cost + cm.delete s[j]) =
      (matrixCell cm s t i j).cumulative_cost + cm.substitute s[j] t[i] →
      ¬ min3 ((matrixCell cm s t i (j + 1)).cumulative_cost + cm.insert t[i])
        ((matrixCell cm s t i j).cumulative_cost + cm.substitute s[j] t[i])
        ((matrixCell cm s t (i + 1) j).cumulative_cost + cm.delete s[j]) =
      (matrixCell cm s t (i + 1) j).cumulative_cost + cm.delete s[j] →
      matrixCell cm s t (i + 1) (j + 1) =
        ⟨cm.insert t[i],
          (matrixCell cm s t i (j + 1)).cumulative_cost + cm.insert t[i], .INS⟩) ∧
    ldist cm s t (i + 1) (j + 1) =
      ⟨(matrixCell cm s t (i + 1) (j + 1)).cumulative_cost,
        (matrixCell cm s t (i + 1) (j + 1)).operation⟩ :=
  ⟨matrixCell_body_cumulative cm s t i j hi hj,
    matrixCell_body_sub_pref cm s t i j hi hj,
    matrixCell_body_del_pref cm s t i j hi hj,
    matrixCell_body_ins_pref cm s t i j hi hj,
    ldist_eq_matrixCell cm s t (i + 1) (j + 1) hi hj⟩

/-- C2 (witness). -/
theorem claim2_witness :
    (matrixCell (levCosts ℕ Char) ['a'] ['b'] 1 1).cumulative_cost =
      min3 ((matrixCell (levCosts ℕ Char) ['a'] ['b'] 0 1).cumulative_cost + 1)
        ((matrixCell (levCosts ℕ Char) ['a'] ['b'] 0 0).cumulative_cost +
          lev_sub_function ℕ 'a' 'b')
        ((matrixCell (levCosts ℕ Char) ['a'] ['b'] 1 0).cumulative_cost + 1) :=
  (claim2_body_recurrence (levCosts ℕ Char) ['a'] ['b'] 0 0 (by decide) (by decide)).1

/-- C3: the matrix dictionary is NOT fresh per call.  `PairAnalysis` gives
the `matrix` field a mutable default value, evaluated once at class creation,
so successive `chart.levenshtein` calls share one dictionary.  Running the
dictionary-state model of `compute_min_edit_distance` for
`levenshtein('ab', 'xy')` and then `levenshtein('a', 'x')` on the shared
dictionary leaves the first call's cell at `Coordinates(2, 2)` visible to the
second call's result, whereas a fresh dictionary for `('a', 'x')` has no such
key. -/
theorem claim3_shared_matrix_leftover :
    (dict_get?
        (compute_min_edit_distanceD (levCosts ℕ Char) ['a'] ['x']
          (compute_min_edit_distanceD (levCosts ℕ Char) ['a', 'b'] ['x', 'y']
            (sharedMatrixInit ℕ)))
        (2, 2)).isSome = true ∧
    dict_get?
        (compute_min_edit_distanceD (levCosts ℕ Char) ['a'] ['x']
          (sharedMatrixInit ℕ))
        (2, 2) = none := by
  decide

/-- C5: the enumerator returns no paths on two empty sequences (for any cost
model), and on source "cat" with empty target exactly one path of three
DELETE steps, each of incremental cost 1, with total cost 3. -/
theorem claim5_boundary :
    (∀ (β α : Type) [LinearOrderedSemiring β] (cm : CostFunctions β α) (jo : Bool),
      relateL cm jo ([] : List α) [] = []) ∧
    relateL (levCosts ℕ Char) false ['c', 'a', 't'] [] =
      [[⟨some 'c', none, 1, 3⟩, ⟨some 'a', none, 1, 2⟩, ⟨some 't', none, 1, 1⟩]] ∧
    parse_cost [(⟨some 'c', none, 1, 3⟩ : XCell ℕ Char), ⟨some 'a', none, 1, 2⟩,
      ⟨some 't', none, 1, 1⟩] = 3 :=
  ⟨fun _ _ _ _ _ => rfl, by decide, by decide⟩

/-- C6 (counterexample): on two empty sequences the enumerator returns zero
paths, not the claimed one trivial empty path. -/
theorem claim6_counterexample :
    (relateL (levCosts ℕ Char) false ([] : List Char) []).length ≠ 1 := by
  decide

/-- C6 (amended): on two empty sequences the enumerator yields an empty
result set; with an empty source and non-empty target it yields exactly one
path of INSERT steps, one per target element in order (`insPath`), and
symmetrically one all-DELETE path (`delPath`) for an empty target. -/
theorem claim6_one_sided [LinearOrderedSemiring β] (cm : CostFunctions β α)
    (jo : Bool) :
    relateL cm jo ([] : List α) [] = [] ∧
    (∀ (t : α) (ts : List α), relateL cm jo [] (t :: ts) = [insPath cm (t :: ts)]) ∧
    (∀ (s : α) (ss : List α), relateL cm jo (s :: ss) [] = [delPath cm (s :: ss)]) :=
  ⟨rfl, fun t ts => parseL_nil_source_ins cm jo t ts,
    fun s ss => parseL_nil_target_del cm jo s ss⟩

/-- C7 (counterexample): with `just_one` set, the enumerator on two empty
sequences returns zero paths, not exactly one. -/
theorem claim7_counterexample :
    (relateL (levCosts ℕ Char) true ([] : List Char) []).length ≠ 1 := by
  decide

/-- C7 (amended): for sequences that are not both empty, `just_one` returns
exactly one path; it is the first parse of the full enumeration (which lists
candidates in SUB, DEL, INS branch order at every coordinate), and its cost
is the tabular engine's minimum edit distance. -/
theorem claim7_just_one [LinearOrderedSemiring β] (cm : CostFunctions β α)
    (s t : List α) (h : ¬(s = [] ∧ t = [])) :
    relateL cm true s t = (relateL cm false s t).take 1 ∧
    (relateL cm true s t).length = 1 ∧
    ∀ p ∈ relateL cm true s t, parse_cost p = min_edit_distanceM cm s t := by
  have htake : relateL cm true s t = (relateL cm false s t).take 1 :=
    parseL_just_one cm s t
  have hne : relateL cm false s t ≠ [] :=
    fun hh => h ((relateL_eq_nil_iff cm false s t).mp hh)
  refine ⟨htake, by rw [htake]; exact length_take_one_of_ne_nil hne, ?_⟩
  intro p hp
  rw [htake] at hp
  have hp2 : p ∈ relateL cm false s t := List.take_subset 1 _ hp
  rw [relateL_cost cm false s t p hp2, min_edit_distanceM_eq_ed]

/-- C7 (witness). -/
theorem claim7_witness :
    relateL (levCosts ℕ Char) true ['a'] [] =
      (relateL (levCosts ℕ Char) false ['a'] []).take 1 ∧
    (relateL (levCosts ℕ Char) true ['a'] []).length = 1 ∧
    ∀ p ∈ relateL (levCosts ℕ Char) true ['a'] [],
      parse_cost p = min_edit_distanceM (levCosts ℕ Char) ['a'] [] :=
  claim7_just_one (levCosts ℕ Char) ['a'] [] (by decide)

/-- C4 (counterexample): in the enumerator a path's FINAL step carries the
cumulative cost of the remaining suffix, not the total: the all-DELETE path
for source `['a', 'b']` has total cost 2, but its last cell's cumulative
cost is 1 (the running total lives in the FIRST cell). -/
theorem claim4_counterexample :
    relateL (levCosts ℕ Char) false ['a', 'b'] [] =
      [[⟨some 'a', none, 1, 2⟩, ⟨some 'b', none, 1, 1⟩]] ∧
    Option.map XCell.cumul_cost
      (([⟨some 'a', none, 1, 2⟩, ⟨some 'b', none, 1, 1⟩] : Parse ℕ Char).getLast?) =
      some 1 ∧
    sum_this ([⟨some 'a', none, 1, 2⟩, ⟨some 'b', none, 1, 1⟩] : Parse ℕ Char) = 2 := by
  decide

/-- C4 (amended): for the two tabular path producers the claim holds — the
final step of every non-empty `chart.get_one_backtrace` carries cumulative
cost equal to the sum of the path's incremental costs (and to the minimum
edit distance), and the final unit of every non-empty
`Levenshtein.alignment_facts` carries the engine's minimum edit distance;
for the enumerator, the cumulative total of a returned path is the sum of
its incremental costs but is carried by the path's FIRST cell
(`parse_cost`), not its last. -/
theorem claim4_final_cost [LinearOrderedSemiring β] (cm : CostFunctions β α)
    (jo : Bool) (s t : List α) :
    (∀ st : EditStep β α, (get_one_backtraceL cm s t).getLast? = some st →
      st.cell.cumulative_cost = bt_sum_this (get_one_backtraceL cm s t) ∧
      st.cell.cumulative_cost = min_edit_distanceM cm s t) ∧
    (∀ u : AlignmentUnit β α, (alignment_factsL cm s t).getLast? = some u →
      u.cost = min_edit_distanceLev cm s t) ∧
    (∀ p ∈ relateL cm jo s t, parse_cost p = sum_this p) := by
  refine ⟨?_, ?_, fun p hp => (relateL_sum_this cm jo s t p hp).symm⟩
  · intro st hst
    have hne : get_one_backtraceL cm s t ≠ [] := by
      intro hnil
      rw [hnil] at hst
      exact Option.noConfusion hst
    have h0 : ¬(t.length = 0 ∧ s.length = 0) := by
      intro hh
      exact hne ((get_one_backtraceL_eq_nil_iff cm s t).mpr
        ⟨List.length_eq_zero.mp hh.1, List.length_eq_zero.mp hh.2⟩)
    obtain ⟨st2, hst2, hcell⟩ := get_one_backtraceL_last cm s t h0
    have hstst : st = st2 := Option.some.inj (hst.symm.trans hst2)
    constructor
    · rw [hstst, hcell, get_one_backtraceL_sum]
      rfl
    · rw [hstst, hcell]
      rfl
  · intro u hu
    have hne : alignment_factsL cm s t ≠ [] := by
      intro hnil
      rw [hnil] at hu
      exact Option.noConfusion hu
    have h0 : ¬(t.length = 0 ∧ s.length = 0) := by
      intro hh
      apply hne
      exact (alignment_factsAux_spec cm s t (t.length + s.length) t.length s.length
        le_rfl le_rfl le_rfl).2.2.1.mpr hh
    obtain ⟨u2, hu2, hc⟩ := alignment_factsL_last cm s t h0
    rw [Option.some.inj (hu.symm.trans hu2), hc]

/-- C4 (witness). -/
theorem claim4_witness :
    ((⟨some 'a', none, ⟨1, 1, COperation.DEL⟩⟩ : EditStep ℕ Char).cell.cumulative_cost =
      bt_sum_this (get_one_backtraceL (levCosts ℕ Char) ['a'] []) ∧
     (⟨some 'a', none, ⟨1, 1, COperation.DEL⟩⟩ : EditStep ℕ Char).cell.cumulative_cost =
      min_edit_distanceM (levCosts ℕ Char) ['a'] []) ∧
    (⟨some 'a', none, 1⟩ : AlignmentUnit ℕ Char).cost =
      min_edit_distanceLev (levCosts ℕ Char) ['a'] [] ∧
    parse_cost [(⟨some 'a', none, 1, 1⟩ : XCell ℕ Char)] =
      sum_this [(⟨some 'a', none, 1, 1⟩ : XCell ℕ Char)] :=
  ⟨(claim4_final_cost (levCosts ℕ Char) false ['a'] []).1
      ⟨some 'a', none, ⟨1, 1, COperation.DEL⟩⟩ (by decide),
    (claim4_final_cost (levCosts ℕ Char) false ['a'] []).2.1
      ⟨some 'a', none, 1⟩ (by decide),
    (claim4_final_cost (levCosts ℕ Char) false ['a'] []).2.2
      [⟨some 'a', none, 1, 1⟩] (by decide)⟩

/-- C8 (counterexample): the enumerator's column widths use `element_length`
(raw `len(str(...))`), which counts combining Mark characters: for the
decomposed source element `"e" + U+0301` (two code points, printable width
1) aligned with `"e"`, `biggest_length_in_parse` reports width 2 where the
claimed printable width is 1. -/
theorem claim8_counterexample :
    [(⟨some "é", some "e", 2, 2⟩ : XCell ℕ String)] ∈
      relateL (levCosts ℕ String) false ["é"] ["e"] ∧
    biggest_length_in_parse [(⟨some "é", some "e", 2, 2⟩ : XCell ℕ String)]
      XCell.source = 2 ∧
    biggest_print_len_in_parse isCombiningAcute
      [(⟨some "é", some "e", 2, 2⟩ : XCell ℕ String)] XCell.source = 1 := by
  decide

/-- C8 (amended): the two tabular formatters do use printable widths — the
chart column width (`PairAnalysis.source_widest`/`target_widest`, computed
by `greatest_width` from `print_len`, which excludes Mark characters) equals
the maximum width over the elements appearing in the corresponding column of
the backtrace, and likewise the class engine's `greatest_width` over the
`alignment_facts` columns equals that over the input sequences; the
enumerator's `biggest_length_in_parse` instead uses raw length and agrees
with the printable column width only on Mark-free elements. -/
theorem claim8_column_widths [LinearOrderedSemiring β] (cm : CostFunctions β α)
    (w : α → ℕ) (is_mark : Char → Bool) (s t : List α) :
    (∀ a : PairAnalysis β α, levenshteinL w cm s t = some a →
      greatest_width w (bt_src_elements (get_one_backtraceA a)) = some a.source_widest ∧
      greatest_width w (bt_targ_elements (get_one_backtraceA a)) = some a.target_widest) ∧
    (greatest_widthLev w (af_unit1_elements (alignment_factsL cm s t)) =
        greatest_widthLev w s ∧
      greatest_widthLev w (af_unit2_elements (alignment_factsL cm s t)) =
        greatest_widthLev w t) ∧
    (∀ (p : Parse β String) (sel : XCell β String → Option String),
      (∀ c ∈ p, ∀ ch ∈ ((sel c).getD "").data, is_mark ch = false) →
      biggest_length_in_parse p sel = biggest_print_len_in_parse is_mark p sel) := by
  refine ⟨?_, ⟨by rw [alignment_factsL_unit1], by rw [alignment_factsL_unit2]⟩, ?_⟩
  · intro a ha
    obtain ⟨hs, ht, hcm, hws, hwt⟩ := levenshteinL_some ha
    constructor
    · unfold get_one_backtraceA
      rw [get_one_backtraceL_src, hs]
      exact hws
    · unfold get_one_backtraceA
      rw [get_one_backtraceL_targ, ht]
      exact hwt
  · intro p sel h
    cases p with
    | nil => rfl
    | cons c cs =>
      have hbase : element_length (sel c) = print_len is_mark ((sel c).getD "") := by
        rw [print_len_of_no_marks is_mark ((sel c).getD "") (h c (List.mem_cons_self c cs))]
        rfl
      show (cs.map fun x => element_length (sel x)).foldl max (element_length (sel c)) =
        (cs.map fun x => print_len is_mark ((sel x).getD "")).foldl max
          (print_len is_mark ((sel c).getD ""))
      rw [hbase]
      exact foldl_max_congr (fun x => element_length (sel x))
        (fun x => print_len is_mark ((sel x).getD "")) cs _
        fun x hx => by
          show element_length (sel x) = print_len is_mark ((sel x).getD "")
          rw [print_len_of_no_marks is_mark ((sel x).getD "")
            (h x (List.mem_cons_of_mem c hx))]
          rfl

/-- C8 (witness). -/
theorem claim8_witness :
    (greatest_width String.length (bt_src_elements (get_one_backtraceA
        (⟨["a"], 1, ["b"], 1, levCosts ℕ String⟩ : PairAnalysis ℕ String))) = some 1 ∧
     greatest_width String.length (bt_targ_elements (get_one_backtraceA
        (⟨["a"], 1, ["b"], 1, levCosts ℕ String⟩ : PairAnalysis ℕ String))) = some 1) ∧
    biggest_length_in_parse [(⟨some "a", some "b", 2, 2⟩ : XCell ℕ String)]
      XCell.source =
      biggest_print_len_in_parse isCombiningAcute
        [(⟨some "a", some "b", 2, 2⟩ : XCell ℕ String)] XCell.source :=
  ⟨(claim8_column_widths (levCosts ℕ String) String.length isCombiningAcute
        ["a"] ["b"]).1 ⟨["a"], 1, ["b"], 1, levCosts ℕ String⟩ rfl,
    (claim8_column_widths (levCosts ℕ String) String.length isCombiningAcute
        ["a"] ["b"]).2.2 [⟨some "a", some "b", 2, 2⟩] XCell.source (by decide)⟩

/-- C9: for every source, target and cost model, every path of either engine
reconstructs both inputs: the non-absent source elements of an enumerator
parse, of the chart backtrace, and of the class engine's alignment facts,
concatenated in order, give back the source sequence exactly, and likewise
the non-absent target elements give back the target. -/
theorem claim9_reconstruction [LinearOrderedSemiring β] (cm : CostFunctions β α)
    (jo : Bool) (s t : List α) :
    (∀ p ∈ relateL cm jo s t, src_elements p = s ∧ targ_elements p = t) ∧
    bt_src_elements (get_one_backtraceL cm s t) = s ∧
    bt_targ_elements (get_one_backtraceL cm s t) = t ∧
    af_unit1_elements (alignment_factsL cm s t) = s ∧
    af_unit2_elements (alignment_factsL cm s t) = t :=
  ⟨fun p hp => relateL_reconstruct cm jo s t p hp,
    get_one_backtraceL_src cm s t, get_one_backtraceL_targ cm s t,
    alignment_factsL_unit1 cm s t, alignment_factsL_unit2 cm s t⟩

/-- C9 (witness). -/
theorem claim9_witness :
    src_elements [(⟨some 'a', some 'b', 2, 2⟩ : XCell ℕ Char)] = ['a'] ∧
    targ_elements [(⟨some 'a', some 'b', 2, 2⟩ : XCell ℕ Char)] = ['b'] :=
  (claim9_reconstruction (levCosts ℕ Char) false ['a'] ['b']).1
    [⟨some 'a', some 'b', 2, 2⟩] (by decide)

/-- C10: under the default cost model (insert 1, delete 1, substitute 0 on
equal and 2 on unequal elements) the minimum edit distance of any sequence
against itself is 0, and every step of the single tabular backtrace for
`(s, s)` is a SUBSTITUTE step pairing equal source and target elements. -/
theorem claim10_self_identity [LinearOrderedSemiring β] [DecidableEq α] (s : List α) :
    min_edit_distanceM (levCosts β α) s s = 0 ∧
    ∀ st ∈ get_one_backtraceL (levCosts β α) s s,
      st.cell.operation = COperation.SUB ∧
      ∃ x : α, st.source = some x ∧ st.target = some x := by
  have hins : ∀ a : α, (0 : β) ≤ (levCosts β α).insert a := fun _ => zero_le_one
  have hdel : ∀ a : α, (0 : β) ≤ (levCosts β α).delete a := fun _ => zero_le_one
  have hsub : ∀ a b : α, (0 : β) ≤ (levCosts β α).substitute a b := by
    intro a b
    show (0 : β) ≤ lev_sub_function β a b
    rw [lev_sub_function]
    split
    · exact le_refl 0
    · exact zero_le_two
  have hsubself : ∀ a : α, (levCosts β α).substitute a a = 0 := by
    intro a
    show lev_sub_function β a a = 0
    rw [lev_sub_function, if_pos rfl]
  constructor
  · show (matrixCell (levCosts β α) s s s.length s.length).cumulative_cost = 0
    exact (matrixCell_diag (levCosts β α) hins hdel hsub hsubself s s.length le_rfl).1
  · intro st hst
    have hst2 : st ∈ backtraceAux (levCosts β α) s s (s.length + s.length)
        s.length s.length := hst
    exact backtraceAux_diag (levCosts β α) hins hdel hsub hsubself s
      (s.length + s.length) s.length le_rfl le_rfl st hst2

/-- C10 (witness). -/
theorem claim10_witness :
    min_edit_distanceM (levCosts ℕ Char) ['a'] ['a'] = 0 ∧
    ((⟨some 'a', some 'a', ⟨0, 0, COperation.SUB⟩⟩ : EditStep ℕ Char).cell.operation =
        COperation.SUB ∧
      ∃ x : Char,
        (⟨some 'a', some 'a', ⟨0, 0, COperation.SUB⟩⟩ : EditStep ℕ Char).source = some x ∧
        (⟨some 'a', some 'a', ⟨0, 0, COperation.SUB⟩⟩ : EditStep ℕ Char).target = some x) :=
  ⟨(claim10_self_identity (β := ℕ) ['a']).1,
    (claim10_self_identity (β := ℕ) ['a']).2
      ⟨some 'a', some 'a', ⟨0, 0, COperation.SUB⟩⟩ (by decide)⟩
